import Mathlib

/-!
# Verification of the agent-loop core (`loop.py`, `tools/base_anthropic.py`)

Shallow embedding of the agent loop of this repository:

* Python strings are modelled as `List Char` (`Str`); Python's `in`
  (substring) test is `pyIn`; Python truthiness of an optional string is
  `truthy`.
* A conversation message (a Python dict `\x7b"role": r, "content": c\x7d`) is
  `Msg`; content is either a raw string or a list of content blocks
  (`Block`), exactly the shapes `loop.py` constructs and inspects.
* The size estimate `len(str(msg))` (Python `repr` length of the message
  dict) is modelled by `pyLenMsg`, computed compositionally with the exact
  per-dict overheads of CPython's repr, assuming no characters that need
  escaping (all concrete inputs used below satisfy this).
* `ToolResult` and its `__add__` are modelled with `Option Str` fields.
* Mutable state (`conversation_history`, `processed_tool_ids`) is passed
  explicitly; the Python `set` used for `tool_use_ids_in_message` and
  `processed_tool_ids` is modelled as a duplicate-free list in insertion
  order (set iteration order is modelled as insertion order).
-/

/-- Python strings. -/
abbrev Str : Type := List Char

/-- Coerce a Lean string literal to the model's string type. -/
def chars (s : String) : Str := s.data

/-- Python `needle in hay` for strings (substring test). -/
def pyIn (needle hay : Str) : Bool := decide (needle <:+: hay)

theorem pyIn_iff (needle hay : Str) : pyIn needle hay = true ↔ needle <:+: hay :=
  decide_eq_true_iff

/-- Python truthiness of an `Optional[str]`: `None` and `""` are falsy. -/
def truthy : Option Str → Bool
  | none => false
  | some s => !s.isEmpty

/-! ## `tools/base_anthropic.py`: `ToolResult` -/

/-- `ToolResult` dataclass: `output`, `error`, `base64_image`, `system`,
all `Optional[str]` defaulting to `None`. -/
structure ToolResult where
  output : Option Str := none
  error : Option Str := none
  base64_image : Option Str := none
  system : Option Str := none
  deriving Repr, DecidableEq

/-- Python `field or other_field` on optional strings: the left value if
truthy, otherwise the right value. -/
def pyOr (a b : Option Str) : Option Str := if truthy a then a else b

/-- `combine_fields` from `ToolResult.__add__`: when both fields are truthy,
either concatenate them or (for non-concatenable fields) raise
`ValueError`; otherwise take `field or other_field`. `Except` models the
raise. -/
def combine_fields (a b : Option Str) (concatenate : Bool := true) :
    Except Str (Option Str) :=
  if truthy a && truthy b then
    if concatenate then
      match a, b with
      | some x, some y => .ok (some (x ++ y))
      | _, _ => .ok none
    else .error (chars "Cannot combine non-concatenable fields")
  else .ok (pyOr a b)

/-- `ToolResult.__add__`: combine two results field-wise; the
`base64_image` field is non-concatenable. -/
def ToolResult.add (r1 r2 : ToolResult) : Except Str ToolResult := do
  let o ← combine_fields r1.output r2.output
  let e ← combine_fields r1.error r2.error
  let i ← combine_fields r1.base64_image r2.base64_image false
  let s ← combine_fields r1.system r2.system
  return { output := o, error := e, base64_image := i, system := s }

/-- The value `combine_fields` computes in the concatenating case. -/
def combineText (a b : Option Str) : Option Str :=
  if truthy a && truthy b then some (a.getD [] ++ b.getD []) else pyOr a b

theorem combine_fields_true_eq (a b : Option Str) :
    combine_fields a b true = .ok (combineText a b) := by
  unfold combine_fields combineText
  by_cases h : truthy a && truthy b
  · rw [if_pos h, if_pos h]
    simp only [Bool.and_eq_true] at h
    cases a with
    | none => simp [truthy] at h
    | some x =>
      cases b with
      | none => simp [truthy] at h
      | some y => rfl
  · rw [if_neg h, if_neg h]

theorem combine_fields_not_both (a b : Option Str)
    (h : ¬(truthy a = true ∧ truthy b = true)) (c : Bool) :
    combine_fields a b c = .ok (pyOr a b) := by
  unfold combine_fields
  rw [if_neg]
  simp only [Bool.and_eq_true]
  exact h

theorem combine_fields_image_err (a b : Option Str)
    (ha : truthy a = true) (hb : truthy b = true) :
    combine_fields a b false =
      .error (chars "Cannot combine non-concatenable fields") := by
  unfold combine_fields
  rw [if_pos (by simp [ha, hb])]
  rfl

/-- Full characterization of `ToolResult.__add__` when the images are not
both set: it succeeds, text fields are combined, images are or-combined. -/
theorem toolResult_add_eq (r1 r2 : ToolResult)
    (h : ¬(truthy r1.base64_image = true ∧ truthy r2.base64_image = true)) :
    r1.add r2 = .ok
      { output := combineText r1.output r2.output
        error := combineText r1.error r2.error
        base64_image := pyOr r1.base64_image r2.base64_image
        system := combineText r1.system r2.system } := by
  unfold ToolResult.add
  rw [combine_fields_true_eq, combine_fields_true_eq,
    combine_fields_not_both _ _ h, combine_fields_true_eq]
  rfl

/-- `ToolResult.__add__` raises when both images are set. -/
theorem toolResult_add_err (r1 r2 : ToolResult)
    (h1 : truthy r1.base64_image = true) (h2 : truthy r2.base64_image = true) :
    r1.add r2 = .error (chars "Cannot combine non-concatenable fields") := by
  unfold ToolResult.add
  rw [combine_fields_true_eq, combine_fields_true_eq,
    combine_fields_image_err _ _ h1 h2]
  rfl

/-- **C9** — Combining two `ToolResult`s (`r1 + r2`) concatenates each pair
of set (truthy) text fields (`output`, `error`, `system`) and fails with an
error exactly when both `r1` and `r2` have their image field set; when at
most one image field is set the combination succeeds and carries that
image. -/
theorem C9_toolresult_add_spec (r1 r2 : ToolResult) :
    ((∃ r, r1.add r2 = .ok r) ↔
      ¬(truthy r1.base64_image = true ∧ truthy r2.base64_image = true)) ∧
    (∀ r, r1.add r2 = .ok r →
      (truthy r1.output = true → truthy r2.output = true →
        ∃ x y, r1.output = some x ∧ r2.output = some y ∧
          r.output = some (x ++ y)) ∧
      (truthy r1.error = true → truthy r2.error = true →
        ∃ x y, r1.error = some x ∧ r2.error = some y ∧
          r.error = some (x ++ y)) ∧
      (truthy r1.system = true → truthy r2.system = true →
        ∃ x y, r1.system = some x ∧ r2.system = some y ∧
          r.system = some (x ++ y)) ∧
      (truthy r1.base64_image = true → r.base64_image = r1.base64_image) ∧
      (truthy r1.base64_image = false → r.base64_image = r2.base64_image)) := by
  have hpair : ∀ a b : Option Str, truthy a = true → truthy b = true →
      ∃ x y, a = some x ∧ b = some y ∧ combineText a b = some (x ++ y) := by
    intro a b ha hb
    cases a with
    | none => simp [truthy] at ha
    | some x =>
      cases b with
      | none => simp [truthy] at hb
      | some y =>
        exact ⟨x, y, rfl, rfl, by simp [combineText, ha, hb]⟩
  constructor
  · constructor
    · rintro ⟨r, hr⟩ ⟨h1, h2⟩
      rw [toolResult_add_err r1 r2 h1 h2] at hr
      cases hr
    · intro h
      exact ⟨_, toolResult_add_eq r1 r2 h⟩
  · intro r hr
    have hni : ¬(truthy r1.base64_image = true ∧ truthy r2.base64_image = true) := by
      rintro ⟨h1, h2⟩
      rw [toolResult_add_err r1 r2 h1 h2] at hr
      cases hr
    rw [toolResult_add_eq r1 r2 hni] at hr
    injection hr with hr
    subst hr
    refine ⟨?_, ?_, ?_, ?_, ?_⟩
    · intro ha hb
      obtain ⟨x, y, hx, hy, hc⟩ := hpair _ _ ha hb
      exact ⟨x, y, hx, hy, hc⟩
    · intro ha hb
      obtain ⟨x, y, hx, hy, hc⟩ := hpair _ _ ha hb
      exact ⟨x, y, hx, hy, hc⟩
    · intro ha hb
      obtain ⟨x, y, hx, hy, hc⟩ := hpair _ _ ha hb
      exact ⟨x, y, hx, hy, hc⟩
    · intro ha
      simp only [pyOr, ha, if_true]
    · intro ha
      simp only [pyOr, ha, Bool.false_eq_true, if_false]

/-- Witness for C9: concrete combination where the images are not both set;
the outputs concatenate and the image of the second operand is carried. -/
theorem C9_witness :
    ∃ r, ToolResult.add
        { output := some (chars "a"), base64_image := none }
        { output := some (chars "b"), base64_image := some (chars "img") } =
        .ok r ∧
      (∃ x y, (some (chars "a") : Option Str) = some x ∧
        (some (chars "b") : Option Str) = some y ∧ r.output = some (x ++ y)) ∧
      r.base64_image = some (chars "img") := by
  have h := C9_toolresult_add_spec
    { output := some (chars "a"), base64_image := none }
    { output := some (chars "b"), base64_image := some (chars "img") }
  obtain ⟨r, hr⟩ := h.1.mpr (by decide)
  obtain ⟨ho, -, -, -, hi⟩ := h.2 r hr
  exact ⟨r, hr, ho (by decide) (by decide), hi (by decide)⟩

/-! ## Data model of conversation messages (`loop.py`)

`conversation_history` holds Python dicts `\x7b"role": r, "content": c\x7d` where
`c` is either a string or a list of content-block dicts.  The block shapes
that `loop.py` constructs or inspects are:

* `\x7b'type': 'text', 'text': t\x7d`
* `\x7b'type': 'tool_use', 'id': i, 'name': n, 'input': args\x7d` (the `input`
  dict is opaque to the loop; it is modelled by its repr string)
* `\x7b'type': 'tool_result', 'tool_use_id': i, 'content': c, 'is_error': b\x7d`
  where `content` is either a string or a list of text/image API blocks,
  and the `is_error` key may be absent (`Option Bool`)
* the per-call record dict `\x7b"name": n, "args": a, "result": ToolResult,
  "tool_use_id": i\x7d` appended by `run_async` alongside each result block
* dicts with any other `'type'` (modelled by their repr), and non-dict
  items (modelled by their repr). -/

/-- Content block of a `tool_result`'s `content` list, as built by
`_make_api_tool_result`. -/
inductive ApiBlock
  | text (t : Str)
  | image (data : Str)
  deriving Repr, DecidableEq

/-- The `content` value of a `tool_result` block: either a plain string or
a list of API blocks. -/
inductive RContent
  | str (s : Str)
  | blocks (bs : List ApiBlock)
  deriving Repr, DecidableEq

/-- A content-block item of a list-content message. -/
inductive Block
  | text (t : Str)
  | toolUse (id name input : Str)
  | toolResult (tool_use_id : Str) (content : RContent) (is_error : Option Bool)
  | record (name args : Str) (result : ToolResult) (tool_use_id : Str)
  | nonDict (raw : Str)
  | otherDict (ty : Str) (raw : Str)
  deriving Repr, DecidableEq

/-- Message content: a raw string or an ordered list of blocks. -/
inductive MContent
  | str (s : Str)
  | list (items : List Block)
  deriving Repr, DecidableEq

/-- A conversation message. -/
structure Msg where
  role : Str
  content : MContent
  deriving Repr, DecidableEq

/-! ## Size estimation: `len(str(msg))`

`_prune_conversation_history` and `get_sanitized_conversation_history`
estimate the history size as `sum(len(str(msg)) for msg in history) // 4`.
`str(msg)` is CPython's repr of the message dict; its length is computed
compositionally below.  Conventions (exact for payloads without characters
needing escapes): a string `s` reprs as `'s'` (`s.length + 2`); a dict
entry `'key': value` costs `key.length + 4 + value-repr`; a dict or list
with `n` elements adds `2` for the delimiters and `2 * (n - 1)` for the
`", "` separators. -/

/-- Repr length of a list given the repr lengths of its elements. -/
def pyLenList (lens : List Nat) : Nat := 2 + lens.sum + 2 * (lens.length - 1)

/-- Repr length of an `Optional[str]` dataclass field (`None` or `'s'`). -/
def pyLenOptStr : Option Str → Nat
  | none => 4
  | some s => s.length + 2

/-- Repr length of a `ToolResult` dataclass
(`ToolResult(output=..., error=..., base64_image=..., system=...)`). -/
def pyLenToolResult (r : ToolResult) : Nat :=
  51 + pyLenOptStr r.output + pyLenOptStr r.error +
    pyLenOptStr r.base64_image + pyLenOptStr r.system

/-- Repr length of an API block inside a `tool_result` content list. -/
def pyLenApiBlock : ApiBlock → Nat
  | .text t => 28 + t.length
  | .image d => 86 + d.length

/-- Repr length of a `tool_result` `content` value. -/
def pyLenRContent : RContent → Nat
  | .str s => s.length + 2
  | .blocks bs => pyLenList (bs.map pyLenApiBlock)

/-- Repr length of the optional `is_error` entry (with its separator). -/
def pyLenIsError : Option Bool → Nat
  | none => 0
  | some true => 18
  | some false => 19

/-- Repr length of a content block. -/
def pyLenBlock : Block → Nat
  | .text t => 28 + t.length
  | .toolUse id name input => 53 + id.length + name.length + input.length
  | .toolResult tuid c e => 55 + tuid.length + pyLenRContent c + pyLenIsError e
  | .record name args result tuid =>
      53 + name.length + args.length + pyLenToolResult result + tuid.length
  | .nonDict raw => raw.length
  | .otherDict _ raw => raw.length

/-- Repr length of a message's content value. -/
def pyLenMContent : MContent → Nat
  | .str s => s.length + 2
  | .list bs => pyLenList (bs.map pyLenBlock)

/-- `len(str(msg))` for a message dict `\x7b'role': r, 'content': c\x7d`. -/
def pyLenMsg (m : Msg) : Nat := 25 + m.role.length + pyLenMContent m.content

/-- `total_chars = sum(len(str(msg)) for msg in history)`. -/
def estimateChars (h : List Msg) : Nat := (h.map pyLenMsg).sum

/-- `approx_tokens = total_chars // 4`. -/
def approxTokens (h : List Msg) : Nat := estimateChars h / 4

/-- `self.max_token_limit = 150000` (set in `AgentLoop.__init__`). -/
def maxTokenLimit : Nat := 150000

/-! ## `AgentLoop._prune_conversation_history` -/

/-- The embedded-image marker tested with Python `in`. -/
def imageMarker : Str := chars "data:image/png;base64,"

/-- Placeholder installed by the pruning stage for screenshots. -/
def placeholderScreenshot : Str := chars "[Screenshot removed to reduce token count]"

/-- Truncation marker used by `_prune_conversation_history`. -/
def truncMarker : Str := chars "... [content truncated]"

/-- Redaction of one item of a list-content message: a `tool_result` whose
`content` is a string is replaced by the screenshot placeholder when it
contains the image marker, else truncated to 1000 chars when longer than
1000; every other item is unchanged (`item["content"]` is assigned in
place, so the `is_error` key is kept). -/
def pruneBlock : Block → Block
  | .toolResult tuid (.str s) e =>
      if pyIn imageMarker s then .toolResult tuid (.str placeholderScreenshot) e
      else if s.length > 1000 then
        .toolResult tuid (.str (s.take 1000 ++ truncMarker)) e
      else .toolResult tuid (.str s) e
  | b => b

/-- Redaction of one message: list content is redacted item-wise; string
content longer than 5000 chars is truncated with the same marker. -/
def pruneMsg : Msg → Msg
  | ⟨r, .list bs⟩ => ⟨r, .list (bs.map pruneBlock)⟩
  | ⟨r, .str s⟩ =>
      if s.length > 5000 then ⟨r, .str (s.take 5000 ++ truncMarker)⟩
      else ⟨r, .str s⟩

/-- Stage 1–2 of `_prune_conversation_history`: redact every message. -/
def redactStage (h : List Msg) : List Msg := h.map pruneMsg

/-- Stage 3: `if len(history) > 10: history = history[-10:]`. -/
def windowStage (h : List Msg) : List Msg :=
  if h.length > 10 then h.drop (h.length - 10) else h

/-- Index of the most recent message with role `"user"` (the loop at lines
301–305 scans from the end). -/
def lastUserIdx (h : List Msg) : Option Nat :=
  (List.range h.length).reverse.find? fun i =>
    decide ((h.getD i ⟨[], .str []⟩).role = chars "user")

/-- Stage 4: if the recomputed estimate still exceeds the budget and more
than two messages remain, keep from the most recent user message onward
(`history[last_user_idx:]`), else keep only the last message
(`history[-1:]`). -/
def collapseStage (h : List Msg) : List Msg :=
  if approxTokens h > maxTokenLimit ∧ h.length > 2 then
    match lastUserIdx h with
    | some i => h.drop i
    | none => h.drop (h.length - 1)
  else h

/-- `AgentLoop._prune_conversation_history`: when the estimate exceeds the
budget, run redaction, then the message-count window, then (after
re-checking the estimate) the collapse to the last exchange.  The size is
re-checked only before the collapse stage; the window stage runs whenever
the initial estimate was over budget. -/
def pruneHistory (h : List Msg) : List Msg :=
  if approxTokens h > maxTokenLimit then
    collapseStage (windowStage (redactStage h))
  else h

/-! ## C7: behaviour of the pruning stages -/

/-- Number of redactable content items in a message (a string content
counts as one item). -/
def msgUnits : Msg → Nat
  | ⟨_, .str _⟩ => 1
  | ⟨_, .list bs⟩ => bs.length

/-- Total number of redactable content items of a history. -/
def unitCount (h : List Msg) : Nat := (h.map msgUnits).sum

theorem sum_drop_le (l : List Nat) (k : Nat) : (l.drop k).sum ≤ l.sum := by
  have := List.sum_take_add_sum_drop l k
  omega

theorem estimateChars_drop_le (h : List Msg) (k : Nat) :
    estimateChars (h.drop k) ≤ estimateChars h := by
  unfold estimateChars
  rw [List.map_drop]
  exact sum_drop_le _ k

theorem windowStage_estimate_le (h : List Msg) :
    estimateChars (windowStage h) ≤ estimateChars h := by
  unfold windowStage
  split
  · exact estimateChars_drop_le h _
  · exact le_refl _

theorem windowStage_length_le (h : List Msg) : (windowStage h).length ≤ 10 ∨
    (windowStage h).length ≤ h.length := by
  unfold windowStage
  split
  · left
    rw [List.length_drop]
    omega
  · right
    exact le_refl _

theorem windowStage_length_le_ten (h : List Msg) : (windowStage h).length ≤ 10 := by
  unfold windowStage
  split
  · rw [List.length_drop]
    omega
  · omega

theorem collapseStage_estimate_le (h : List Msg) :
    estimateChars (collapseStage h) ≤ estimateChars h := by
  unfold collapseStage
  split
  · split
    · exact estimateChars_drop_le h _
    · exact estimateChars_drop_le h _
  · exact le_refl _

theorem collapseStage_length_le (h : List Msg) :
    (collapseStage h).length ≤ h.length := by
  unfold collapseStage
  split
  · split
    · rw [List.length_drop]; omega
    · rw [List.length_drop]; omega
  · exact le_refl _

theorem pruneBlock_pyLen_le (b : Block) :
    pyLenBlock (pruneBlock b) ≤ pyLenBlock b + 22 := by
  match b with
  | .text _ | .toolUse _ _ _ | .record _ _ _ _ | .nonDict _ | .otherDict _ _ =>
      simp [pruneBlock]
  | .toolResult tuid (.blocks bs) e => simp [pruneBlock]
  | .toolResult tuid (.str s) e =>
      simp only [pruneBlock]
      by_cases hm : pyIn imageMarker s
      · rw [if_pos hm]
        have hlen : imageMarker.length ≤ s.length :=
          ((pyIn_iff _ _).mp hm).length_le
        have : imageMarker.length = 22 := by decide
        have : placeholderScreenshot.length = 42 := by decide
        simp only [pyLenBlock, pyLenRContent]
        omega
      · rw [if_neg hm]
        by_cases hl : s.length > 1000
        · rw [if_pos hl]
          have h1 : (s.take 1000 ++ truncMarker).length = 1023 := by
            rw [List.length_append, List.length_take]
            have : truncMarker.length = 23 := by decide
            omega
          simp only [pyLenBlock, pyLenRContent]
          omega
        · rw [if_neg hl]
          exact Nat.le_add_right _ _

theorem sum_map_add_const {α : Type} (l : List α) (f : α → Nat) (c : Nat) :
    (l.map fun x => f x + c).sum = (l.map f).sum + c * l.length := by
  induction l with
  | nil => simp
  | cons x xs ih =>
      simp only [List.map_cons, List.sum_cons, List.length_cons, ih]
      ring

theorem sum_map_add_mul {α : Type} (l : List α) (f u : α → Nat) (c : Nat) :
    (l.map fun x => f x + c * u x).sum = (l.map f).sum + c * (l.map u).sum := by
  induction l with
  | nil => simp
  | cons x xs ih =>
      simp only [List.map_cons, List.sum_cons, ih]
      ring

theorem pruneMsg_pyLen_le (m : Msg) :
    pyLenMsg (pruneMsg m) ≤ pyLenMsg m + 22 * msgUnits m := by
  match m with
  | ⟨r, .str s⟩ =>
      simp only [pruneMsg]
      by_cases hl : s.length > 5000
      · rw [if_pos hl]
        have h1 : (s.take 5000 ++ truncMarker).length = 5023 := by
          rw [List.length_append, List.length_take]
          have : truncMarker.length = 23 := by decide
          omega
        simp only [pyLenMsg, pyLenMContent, msgUnits]
        omega
      · rw [if_neg hl]
        exact Nat.le_add_right _ _
  | ⟨r, .list bs⟩ =>
      simp only [pruneMsg, pyLenMsg, pyLenMContent, msgUnits, pyLenList,
        List.map_map, List.length_map]
      have h1 : (bs.map (pyLenBlock ∘ pruneBlock)).sum ≤
          (bs.map fun b => pyLenBlock b + 22).sum := by
        apply List.sum_le_sum
        intro b _
        exact pruneBlock_pyLen_le b
      rw [sum_map_add_const] at h1
      omega

theorem redactStage_estimate_le (h : List Msg) :
    estimateChars (redactStage h) ≤ estimateChars h + 22 * unitCount h := by
  unfold redactStage estimateChars unitCount
  rw [List.map_map]
  have h1 : (h.map (pyLenMsg ∘ pruneMsg)).sum ≤
      (h.map fun m => pyLenMsg m + 22 * msgUnits m).sum := by
    apply List.sum_le_sum
    intro m _
    exact pruneMsg_pyLen_le m
  calc (h.map (pyLenMsg ∘ pruneMsg)).sum
      ≤ (h.map fun m => pyLenMsg m + 22 * msgUnits m).sum := h1
    _ = (h.map pyLenMsg).sum + 22 * (h.map msgUnits).sum :=
        sum_map_add_mul h pyLenMsg msgUnits 22

/-- **C7 (amended)** — The pruning stages run in the fixed order
redact-payloads/redact-text → window-by-message-count → collapse-to-last-
exchange, and the estimated size is re-checked only before the collapse
stage (the window stage runs whenever the initial estimate was over
budget, even if redaction already brought it under).  The windowing and
collapse stages never increase the size estimate; the redaction stage can
increase it, by at most 22 characters per content item (placeholder and
truncation-marker overhead).  The final result has estimated size within
the budget or retains at most 10 messages. -/
theorem C7_pruning_stages (h : List Msg) :
    (estimateChars (windowStage h) ≤ estimateChars h) ∧
    (estimateChars (collapseStage h) ≤ estimateChars h) ∧
    (estimateChars (redactStage h) ≤ estimateChars h + 22 * unitCount h) ∧
    (pruneHistory h = h ∨
      pruneHistory h = collapseStage (windowStage (redactStage h))) ∧
    (approxTokens (pruneHistory h) ≤ maxTokenLimit ∨
      (pruneHistory h).length ≤ 10) := by
  refine ⟨windowStage_estimate_le h, collapseStage_estimate_le h,
    redactStage_estimate_le h, ?_, ?_⟩
  · unfold pruneHistory
    split
    · right; rfl
    · left; rfl
  · unfold pruneHistory
    split
    · right
      calc (collapseStage (windowStage (redactStage h))).length
          ≤ (windowStage (redactStage h)).length := collapseStage_length_le _
        _ ≤ 10 := windowStage_length_le_ten _
    · left
      omega

/-! ### C7 counterexample: pruning can increase the size estimate

A history over the token budget whose only redactable payload is a
1001-character tool output: truncation rewrites it to
`content[:1000] + "... [content truncated]"` (1023 characters), so the
redaction stage increases the estimate by 22 characters. -/

/-- A 600100-character payload (pushes the history over the budget). -/
def bigA : Str := List.replicate 600100 'a'

/-- A 1001-character tool output with no image marker. -/
def cex1001 : Str := List.replicate 1001 'x'

def cexC7 : List Msg :=
  [⟨chars "user", .list
    [.toolResult (chars "t1") (.blocks [.text bigA]) none,
     .toolResult (chars "t2") (.str cex1001) none]⟩]

def cexC7pruned : List Msg :=
  [⟨chars "user", .list
    [.toolResult (chars "t1") (.blocks [.text bigA]) none,
     .toolResult (chars "t2") (.str (cex1001.take 1000 ++ truncMarker)) none]⟩]

theorem cex1001_no_marker : ¬(pyIn imageMarker cex1001 = true) := by
  intro h
  have hsub := ((pyIn_iff _ _).mp h).subset
  have hd : 'd' ∈ imageMarker := by decide
  have hmem := hsub hd
  have := List.eq_of_mem_replicate (show 'd' ∈ List.replicate 1001 'x' from hmem)
  exact absurd this (by decide)

/-- Size of the counterexample shape, with abstract payloads `s` and `t`
(abstract so that no tactic ever evaluates the large concrete payloads). -/
theorem cexC7_shape_estimate (s t : Str) :
    estimateChars [⟨chars "user", .list
      [.toolResult (chars "t1") (.blocks [.text s]) none,
       .toolResult (chars "t2") (.str t) none]⟩] =
      179 + s.length + t.length := by
  have h3 : (chars "user").length = 4 := rfl
  have h4 : (chars "t1").length = 2 := rfl
  have h5 : (chars "t2").length = 2 := rfl
  simp only [estimateChars, List.map_cons, List.map_nil, List.sum_cons,
    List.sum_nil, pyLenMsg, pyLenMContent, pyLenList, pyLenBlock, pyLenRContent,
    pyLenApiBlock, pyLenIsError, List.length_cons, List.length_nil,
    h3, h4, h5]
  omega

theorem cexC7_estimate : estimateChars cexC7 = 601280 := by
  have h1 : bigA.length = 600100 := by rw [bigA, List.length_replicate]
  have h2 : cex1001.length = 1001 := by rw [cex1001, List.length_replicate]
  unfold cexC7
  rw [cexC7_shape_estimate, h1, h2]

theorem cexC7pruned_estimate : estimateChars cexC7pruned = 601302 := by
  have h1 : bigA.length = 600100 := by rw [bigA, List.length_replicate]
  have h2 : (cex1001.take 1000 ++ truncMarker).length = 1023 := by
    rw [List.length_append, List.length_take]
    have hl : cex1001.length = 1001 := by rw [cex1001, List.length_replicate]
    have hm : truncMarker.length = 23 := rfl
    omega
  unfold cexC7pruned
  rw [cexC7_shape_estimate, h1, h2]

theorem cexC7_prune_eq : pruneHistory cexC7 = cexC7pruned := by
  have hgt : approxTokens cexC7 > maxTokenLimit := by
    rw [approxTokens, cexC7_estimate]
    norm_num [maxTokenLimit]
  have hred : redactStage cexC7 = cexC7pruned := by
    unfold redactStage cexC7 cexC7pruned
    simp only [List.map_cons, List.map_nil, pruneMsg, pruneBlock]
    rw [if_neg cex1001_no_marker, if_pos (by rw [cex1001, List.length_replicate]; norm_num)]
  have hwin : windowStage cexC7pruned = cexC7pruned := by
    unfold windowStage
    rw [if_neg]
    simp only [cexC7pruned, List.length_cons, List.length_nil]
    omega
  have hcol : collapseStage cexC7pruned = cexC7pruned := by
    unfold collapseStage
    rw [if_neg]
    rintro ⟨-, hlen⟩
    simp only [cexC7pruned, List.length_cons, List.length_nil] at hlen
    omega
  unfold pruneHistory
  rw [if_pos hgt, hred, hwin, hcol]

/-- **C7 counterexample** — The claim "no stage increases the size
estimate" is false: on `cexC7` (over budget, one 1001-character tool
output) the pruning pass strictly increases the estimated size, because
truncation to 1000 characters appends a 23-character marker. -/
theorem C7_counterexample :
    approxTokens cexC7 < approxTokens (pruneHistory cexC7) := by
  rw [approxTokens, approxTokens, cexC7_prune_eq, cexC7_estimate,
    cexC7pruned_estimate]
  norm_num

/-! ## C8: Scenario A — a 12-message history with an embedded-image
tool outcome, over budget, is pruned to placeholder and under budget -/

/-- A 25-character tool output that is an embedded image
(starts with the marker `data:image/png;base64,`). -/
def imgContent : Str := chars "data:image/png;base64,AAA"

/-- Scenario A history: 12 messages, the first a 600100-character user
message (over budget), the fifth a `ToolOutcome` whose output is an
embedded image. -/
def scenarioA : List Msg :=
  [⟨chars "user", .str bigA⟩,
   ⟨chars "assistant", .str (chars "ok")⟩,
   ⟨chars "user", .str (chars "hi")⟩,
   ⟨chars "assistant", .list
     [.text (chars "t"), .toolUse (chars "tA") (chars "computer") (chars "in")]⟩,
   ⟨chars "user", .list [.toolResult (chars "tA") (.str imgContent) (some false)]⟩,
   ⟨chars "assistant", .str (chars "m6")⟩,
   ⟨chars "user", .str (chars "m7")⟩,
   ⟨chars "assistant", .str (chars "m8")⟩,
   ⟨chars "user", .str (chars "m9")⟩,
   ⟨chars "assistant", .str (chars "m10")⟩,
   ⟨chars "user", .str (chars "m11")⟩,
   ⟨chars "assistant", .str (chars "m12")⟩]

/-- The result of pruning Scenario A: the two oldest messages are dropped
by the message-count window and the image output is the placeholder. -/
def scenarioAPruned : List Msg :=
  [⟨chars "user", .str (chars "hi")⟩,
   ⟨chars "assistant", .list
     [.text (chars "t"), .toolUse (chars "tA") (chars "computer") (chars "in")]⟩,
   ⟨chars "user", .list
     [.toolResult (chars "tA") (.str placeholderScreenshot) (some false)]⟩,
   ⟨chars "assistant", .str (chars "m6")⟩,
   ⟨chars "user", .str (chars "m7")⟩,
   ⟨chars "assistant", .str (chars "m8")⟩,
   ⟨chars "user", .str (chars "m9")⟩,
   ⟨chars "assistant", .str (chars "m10")⟩,
   ⟨chars "user", .str (chars "m11")⟩,
   ⟨chars "assistant", .str (chars "m12")⟩]

/-- Scenario A after the redaction stage only. -/
def scenarioARed : List Msg :=
  ⟨chars "user", .str (bigA.take 5000 ++ truncMarker)⟩ ::
  ⟨chars "assistant", .str (chars "ok")⟩ :: scenarioAPruned

theorem estimateChars_cons (m : Msg) (rest : List Msg) :
    estimateChars (m :: rest) = pyLenMsg m + estimateChars rest := by
  simp [estimateChars]

theorem pyLenMsg_user_str (s : Str) :
    pyLenMsg ⟨chars "user", .str s⟩ = 31 + s.length := by
  simp only [pyLenMsg, pyLenMContent]
  have h : (chars "user").length = 4 := rfl
  omega

theorem scenarioA_msg1_len : pyLenMsg ⟨chars "user", .str bigA⟩ = 600131 := by
  rw [pyLenMsg_user_str, bigA, List.length_replicate]

theorem scenarioA_over_budget : approxTokens scenarioA > maxTokenLimit := by
  rw [approxTokens, maxTokenLimit]
  have hle : 600131 ≤ estimateChars scenarioA := by
    rw [scenarioA, estimateChars_cons, scenarioA_msg1_len]
    exact Nat.le_add_right _ _
  calc (150000 : Nat) < 600131 / 4 := by norm_num
    _ ≤ estimateChars scenarioA / 4 := Nat.div_le_div_right hle

theorem scenarioA_msg1_prune :
    pruneMsg ⟨chars "user", .str bigA⟩ =
      ⟨chars "user", .str (bigA.take 5000 ++ truncMarker)⟩ := by
  simp only [pruneMsg]
  rw [if_pos]
  rw [bigA, List.length_replicate]
  norm_num

theorem scenarioA_redact : redactStage scenarioA = scenarioARed := by
  rw [redactStage, scenarioA]
  simp only [List.map_cons, List.map_nil]
  rw [scenarioA_msg1_prune, scenarioARed, scenarioAPruned]
  rfl

theorem scenarioARed_window : windowStage scenarioARed = scenarioAPruned := by
  rw [windowStage]
  rw [if_pos (by decide)]
  rfl

theorem scenarioAPruned_collapse :
    collapseStage scenarioAPruned = scenarioAPruned := by
  rw [collapseStage]
  rw [if_neg (by decide)]

theorem scenarioA_prune_eq : pruneHistory scenarioA = scenarioAPruned := by
  rw [pruneHistory, if_pos scenarioA_over_budget, scenarioA_redact,
    scenarioARed_window, scenarioAPruned_collapse]

/-- **C8** — Scenario A: a 12-message history containing one `ToolOutcome`
whose output is an embedded image, with total estimated size exceeding the
budget; running the pruning policy replaces that output with the fixed
placeholder string and the total estimated size drops below the budget
(the message-count window also drops the two oldest messages). -/
theorem C8_scenarioA_prune :
    scenarioA.length = 12 ∧
    pyIn imageMarker imgContent = true ∧
    (⟨chars "user", .list
      [.toolResult (chars "tA") (.str imgContent) (some false)]⟩ : Msg)
      ∈ scenarioA ∧
    approxTokens scenarioA > maxTokenLimit ∧
    pruneHistory scenarioA = scenarioAPruned ∧
    (⟨chars "user", .list
      [.toolResult (chars "tA") (.str placeholderScreenshot) (some false)]⟩ : Msg)
      ∈ scenarioAPruned ∧
    approxTokens (pruneHistory scenarioA) ≤ maxTokenLimit := by
  refine ⟨rfl, by decide, ?_, scenarioA_over_budget, scenarioA_prune_eq, ?_, ?_⟩
  · rw [scenarioA]
    exact .tail _ (.tail _ (.tail _ (.tail _ (.head _))))
  · rw [scenarioAPruned]
    exact .tail _ (.tail _ (.head _))
  · rw [scenarioA_prune_eq]
    decide

/-! ## `AgentLoop` mutable state and `add_message` (C10) -/

/-- The loop state mutated by `run_async`: `conversation_history` and the
session-scoped `processed_tool_ids` (modelled as a list in insertion
order). -/
structure LoopState where
  conversation_history : List Msg
  processed_tool_ids : List Str
  deriving Repr, DecidableEq

/-- Placeholder installed by `add_message` for screenshots (distinct from
the pruning-stage placeholder). -/
def placeholderScreenshotAdd : Str :=
  chars "[Screenshot data - not included in context to save tokens]"

/-- Truncation marker used by `add_message`. -/
def truncMarkerAdd : Str := chars "... [content truncated to save tokens]"

/-- Redaction applied by `add_message` to each item of a user list-content
message: a `tool_result` whose string content contains the image marker is
replaced by a fresh 3-key dict (placeholder content, `is_error` dropped);
string content over 5000 chars is truncated in place; everything else is
unchanged. -/
def addBlock : Block → Block
  | .toolResult tuid (.str s) e =>
      if pyIn imageMarker s then
        .toolResult tuid (.str placeholderScreenshotAdd) none
      else if s.length > 5000 then
        .toolResult tuid (.str (s.take 5000 ++ truncMarkerAdd)) e
      else .toolResult tuid (.str s) e
  | b => b

/-- `AgentLoop.add_message`: prune the existing history first, redact user
list content, then append the message. -/
def add_message (st : LoopState) (role : Str) (content : MContent) : LoopState :=
  let h := pruneHistory st.conversation_history
  let content' :=
    if role = chars "user" then
      match content with
      | .list items => .list (items.map addBlock)
      | c => c
    else content
  { st with conversation_history := h ++ [⟨role, content'⟩] }

/-- The `tool_use_id` of a `tool_result` block, if the item is one. -/
def toolResultId : Block → Option Str
  | .toolResult tuid _ _ => some tuid
  | _ => none

theorem addBlock_keeps_toolResultId (b : Block) :
    toolResultId (addBlock b) = toolResultId b := by
  match b with
  | .text _ | .toolUse _ _ _ | .record _ _ _ _ | .nonDict _ | .otherDict _ _ =>
      rfl
  | .toolResult tuid (.blocks bs) e => rfl
  | .toolResult tuid (.str s) e =>
      simp only [addBlock]
      by_cases hm : pyIn imageMarker s
      · rw [if_pos hm]
        rfl
      · rw [if_neg hm]
        by_cases hl : s.length > 5000
        · rw [if_pos hl]
          rfl
        · rw [if_neg hl]

/-- **C10** — Appending a user message whose content is a list of blocks
via `add_message` redacts the message before insertion regardless of the
current size estimate: every `tool_result` block whose string content
contains the embedded-image marker is replaced by a placeholder (dropping
`is_error`); every other `tool_result` string content longer than 5000
characters is truncated with a marker; blocks of other kinds, assistant
messages, and string-content messages are inserted unchanged (the
pre-existing history is pruned first, as always). -/
theorem C10_add_message_redacts :
    (∀ st items,
      (add_message st (chars "user") (.list items)).conversation_history =
        pruneHistory st.conversation_history ++
          [⟨chars "user", .list (items.map addBlock)⟩]) ∧
    (∀ tuid s e, pyIn imageMarker s = true →
      addBlock (.toolResult tuid (.str s) e) =
        .toolResult tuid (.str placeholderScreenshotAdd) none) ∧
    (∀ tuid s e, pyIn imageMarker s = false → s.length > 5000 →
      addBlock (.toolResult tuid (.str s) e) =
        .toolResult tuid (.str (s.take 5000 ++ truncMarkerAdd)) e) ∧
    (∀ tuid s e, pyIn imageMarker s = false → ¬(s.length > 5000) →
      addBlock (.toolResult tuid (.str s) e) = .toolResult tuid (.str s) e) ∧
    (∀ tuid bs e,
      addBlock (.toolResult tuid (.blocks bs) e) =
        .toolResult tuid (.blocks bs) e) ∧
    (∀ b, toolResultId b = none → addBlock b = b) ∧
    (∀ st role c, role ≠ chars "user" →
      (add_message st role c).conversation_history =
        pruneHistory st.conversation_history ++ [⟨role, c⟩]) ∧
    (∀ st role s,
      (add_message st role (.str s)).conversation_history =
        pruneHistory st.conversation_history ++ [⟨role, .str s⟩]) := by
  refine ⟨?_, ?_, ?_, ?_, ?_, ?_, ?_, ?_⟩
  · intro st items
    simp [add_message]
  · intro tuid s e hm
    simp only [addBlock]
    rw [if_pos hm]
  · intro tuid s e hm hl
    simp only [addBlock]
    rw [if_neg (by simp [hm]), if_pos hl]
  · intro tuid s e hm hl
    simp only [addBlock]
    rw [if_neg (by simp [hm]), if_neg hl]
  · intro tuid bs e
    rfl
  · intro b hb
    match b with
    | .text _ | .toolUse _ _ _ | .record _ _ _ _ | .nonDict _ | .otherDict _ _ =>
        rfl
    | .toolResult tuid c e => simp [toolResultId] at hb
  · intro st role c hrole
    simp only [add_message]
    rw [if_neg hrole]
  · intro st role s
    simp only [add_message]
    by_cases hrole : role = chars "user"
    · rw [if_pos hrole]
    · rw [if_neg hrole]

/-- Witness for C10 at concrete inputs: an image outcome is replaced (with
`is_error` dropped) and a text block is untouched, inside an appended user
message, on a state whose history is empty. -/
theorem C10_witness :
    (add_message ⟨[], []⟩ (chars "user")
        (.list [.toolResult (chars "t") (.str imgContent) (some false),
                .text (chars "hello")])).conversation_history =
      [⟨chars "user", .list
        [.toolResult (chars "t") (.str placeholderScreenshotAdd) none,
         .text (chars "hello")]⟩] ∧
    addBlock (.toolResult (chars "t") (.str imgContent) (some false)) =
      .toolResult (chars "t") (.str placeholderScreenshotAdd) none := by
  have h := C10_add_message_redacts
  have h1 := h.1 ⟨[], []⟩
    [.toolResult (chars "t") (.str imgContent) (some false),
     .text (chars "hello")]
  have h2 := h.2.1 (chars "t") imgContent (some false) (by decide)
  constructor
  · rw [h1]
    rw [show pruneHistory [] = [] from rfl]
    simp only [List.map_cons, List.map_nil, h2]
    rfl
  · exact h2

/-! ## Response blocks, `_make_api_tool_result`, and the tool dispatcher
(`run_async` lines 722–802) -/

/-- A normalized response content block (`_response_to_params` emits only
non-empty `text` blocks and `tool_use` blocks). -/
inductive RespBlock
  | text (t : Str)
  | toolUse (id name input : Str)
  deriving Repr, DecidableEq

/-- Outcome of awaiting `tool_collection.run`: a result, a raised
`ToolError`, or another exception. -/
inductive ExecOut
  | ok (r : ToolResult)
  | toolError (msg : Str)
  | exn (msg : Str)
  deriving Repr, DecidableEq

/-- The `ToolResult` held in `result` after the try/except around the tool
call: `ToolError e` yields `ToolResult(error=str(e))`; any other exception
yields `ToolResult(error=f"Unexpected error: ...")`. -/
def execResult : ExecOut → ToolResult
  | .ok r => r
  | .toolError m => { error := some m }
  | .exn m => { error := some (chars "Unexpected error: " ++ m) }

/-- `AgentLoop._make_api_tool_result`: convert a `ToolResult` into a
`tool_result` block.  An error result yields string content (with an
optional `<system>` prefix) and `is_error=True`; otherwise the content is
a list holding an optional text block and an optional image block. -/
def make_api_tool_result (result : ToolResult) (tool_use_id : Str) : Block :=
  if truthy result.error then
    .toolResult tool_use_id
      (.str (if truthy result.system then
          chars "<system>" ++ result.system.getD [] ++ chars "</system>\n" ++
            result.error.getD []
        else result.error.getD []))
      (some true)
  else
    .toolResult tool_use_id
      (.blocks
        ((if truthy result.output then
            [ApiBlock.text (if truthy result.system then
                chars "<system>" ++ result.system.getD [] ++ chars "</system>\n" ++
                  result.output.getD []
              else result.output.getD [])]
          else []) ++
         (if truthy result.base64_image then
            [ApiBlock.image (result.base64_image.getD [])]
          else [])))
      (some false)

theorem make_api_tool_result_id (r : ToolResult) (tuid : Str) :
    toolResultId (make_api_tool_result r tuid) = some tuid := by
  simp only [make_api_tool_result]
  by_cases h : truthy r.error
  · rw [if_pos h]
    rfl
  · rw [if_neg h]
    rfl

/-- Result of the dispatch loop over the response blocks: the updated
`processed_tool_ids`, the accumulated `tool_results` entries (one record
dict and one `tool_result` block per executed call, in order), and the ids
of the tool calls actually executed, in execution order. -/
structure DispatchRes where
  processed : List Str
  entries : List Block
  execs : List Str
  deriving Repr, DecidableEq

/-- The dispatch loop of `run_async`: for each `tool_use` block in order,
skip it entirely when its id is already in `processed_tool_ids`
(`continue`), otherwise mark it processed, execute the tool, and append
the record entry and the API `tool_result` block to `tool_results`. -/
def dispatchToolCalls (runTool : Str → Str → ExecOut) (processed : List Str) :
    List RespBlock → DispatchRes
  | [] => ⟨processed, [], []⟩
  | .text _ :: rest => dispatchToolCalls runTool processed rest
  | .toolUse id name input :: rest =>
      if id ∈ processed then dispatchToolCalls runTool processed rest
      else
        let result := execResult (runTool name input)
        let d := dispatchToolCalls runTool (processed ++ [id]) rest
        ⟨d.processed,
         .record name input result id :: make_api_tool_result result id :: d.entries,
         id :: d.execs⟩

/-- The `tool_use` ids of a response, in order (with duplicates). -/
def useIds (bs : List RespBlock) : List Str :=
  bs.filterMap fun b => match b with
    | .toolUse id _ _ => some id
    | _ => none

/-- The ids of the `tool_result` blocks among the accumulated entries. -/
def outcomeIds (entries : List Block) : List Str := entries.filterMap toolResultId

/-- Main dispatch invariant, proved by induction over the response blocks:
executed ids are duplicate-free, an id executes iff it is fresh (not in
the session's `processed_tool_ids`) and requested; each executed id
produces exactly one `tool_result` entry (in execution order); the
processed set grows by exactly the executed ids. -/
theorem dispatch_invariant (runTool : Str → Str → ExecOut) :
    ∀ (bs : List RespBlock) (p0 : List Str),
      (dispatchToolCalls runTool p0 bs).execs.Nodup ∧
      (∀ t, t ∈ (dispatchToolCalls runTool p0 bs).execs ↔
        (t ∉ p0 ∧ t ∈ useIds bs)) ∧
      outcomeIds (dispatchToolCalls runTool p0 bs).entries =
        (dispatchToolCalls runTool p0 bs).execs ∧
      (dispatchToolCalls runTool p0 bs).processed =
        p0 ++ (dispatchToolCalls runTool p0 bs).execs := by
  intro bs
  induction bs with
  | nil =>
      intro p0
      simp [dispatchToolCalls, useIds, outcomeIds]
  | cons b rest ih =>
      intro p0
      match b with
      | .text t =>
          rw [show dispatchToolCalls runTool p0 (.text t :: rest) =
            dispatchToolCalls runTool p0 rest from rfl]
          obtain ⟨ihnd, ihmem, ihout, ihproc⟩ := ih p0
          refine ⟨ihnd, ?_, ihout, ihproc⟩
          intro t'
          rw [ihmem t']
          simp [useIds]
      | .toolUse id name input =>
          by_cases hmem : id ∈ p0
          · obtain ⟨ihnd, ihmem', ihout, ihproc⟩ := ih p0
            rw [show dispatchToolCalls runTool p0 (.toolUse id name input :: rest) =
              dispatchToolCalls runTool p0 rest from by
                simp only [dispatchToolCalls]
                rw [if_pos hmem]]
            refine ⟨ihnd, ?_, ihout, ihproc⟩
            intro t'
            rw [ihmem' t']
            simp only [useIds, List.filterMap_cons]
            constructor
            · rintro ⟨hp, hr⟩
              exact ⟨hp, by simp [hr]⟩
            · rintro ⟨hp, hr⟩
              simp only [List.mem_cons] at hr
              rcases hr with heq | hr
              · subst heq
                exact absurd hmem hp
              · exact ⟨hp, hr⟩
          · obtain ⟨ihnd, ihmem', ihout, ihproc⟩ := ih (p0 ++ [id])
            have hstep : dispatchToolCalls runTool p0 (.toolUse id name input :: rest) =
                ⟨(dispatchToolCalls runTool (p0 ++ [id]) rest).processed,
                 .record name input (execResult (runTool name input)) id ::
                   make_api_tool_result (execResult (runTool name input)) id ::
                     (dispatchToolCalls runTool (p0 ++ [id]) rest).entries,
                 id :: (dispatchToolCalls runTool (p0 ++ [id]) rest).execs⟩ := by
              simp only [dispatchToolCalls]
              rw [if_neg hmem]
            rw [hstep]
            refine ⟨?_, ?_, ?_, ?_⟩
            · refine List.nodup_cons.mpr ⟨?_, ihnd⟩
              intro hin
              have := (ihmem' id).mp hin
              simp at this
            · intro t'
              simp only [List.mem_cons, useIds, List.filterMap_cons]
              rw [ihmem' t']
              simp only [List.mem_append, List.mem_singleton, List.mem_cons]
              constructor
              · rintro (heq | ⟨hp, hr⟩)
                · subst heq
                  exact ⟨hmem, Or.inl rfl⟩
                · exact ⟨fun hc => hp (Or.inl hc), Or.inr hr⟩
              · rintro ⟨hp, heq | hr⟩
                · exact Or.inl heq
                · by_cases ht : t' = id
                  · exact Or.inl ht
                  · exact Or.inr ⟨fun hc => (by tauto : False), hr⟩
            · simp only [outcomeIds, List.filterMap_cons,
                make_api_tool_result_id,
                show toolResultId (Block.record name input
                  (execResult (runTool name input)) id) = none from rfl]
              simp only [outcomeIds] at ihout
              rw [ihout]
            · rw [ihproc, List.append_assoc]
              rfl

/-- **C3 (amended)** — Within a session, the underlying tool is executed at
most once per invocation id: an id executes exactly when it is requested
and not already in the session's `processed_tool_ids`; re-dispatching the
same id is skipped entirely (`continue`), producing no outcome block at
all — there is no cached outcome to return.  Each executed id yields
exactly one `tool_result` entry, in execution order, and the processed set
grows by exactly the executed ids. -/
theorem C3_dedup_executes_once (runTool : Str → Str → ExecOut)
    (p0 : List Str) (bs : List RespBlock) :
    ((dispatchToolCalls runTool p0 bs).execs.Nodup) ∧
    (∀ t, t ∈ (dispatchToolCalls runTool p0 bs).execs ↔
      (t ∉ p0 ∧ t ∈ useIds bs)) ∧
    (outcomeIds (dispatchToolCalls runTool p0 bs).entries =
      (dispatchToolCalls runTool p0 bs).execs) ∧
    ((dispatchToolCalls runTool p0 bs).processed =
      p0 ++ (dispatchToolCalls runTool p0 bs).execs) :=
  dispatch_invariant runTool bs p0

/-- A concrete tool oracle that always succeeds with output `"done"`. -/
def demoRunTool : Str → Str → ExecOut :=
  fun _ _ => .ok { output := some (chars "done") }

/-- Dispatch of the same invocation id twice in one response. -/
def cexC3 : DispatchRes :=
  dispatchToolCalls demoRunTool []
    [.toolUse (chars "t1") (chars "bash") (chars "x"),
     .toolUse (chars "t1") (chars "bash") (chars "x")]

/-- **C3 counterexample** — Dispatching the same invocation id twice: the
tool executes once, but the second dispatch does *not* return the cached
outcome — it is skipped and contributes nothing, so the entries hold
exactly one `tool_result` for the id instead of one per dispatch. -/
theorem C3_counterexample :
    cexC3.execs = [chars "t1"] ∧
    outcomeIds cexC3.entries = [chars "t1"] ∧
    ¬(outcomeIds cexC3.entries = [chars "t1", chars "t1"]) := by decide

/-! ## Response processing (`run_async` lines 684–823) -/

/-- `assistant_message`: the last non-empty `text` block of the response
(each `text` block overwrites the previous value; initially `""`). -/
def respLastText (bs : List RespBlock) : Str :=
  bs.foldl (fun acc b => match b with
    | .text t => t
    | _ => acc) (chars "")

/-- The `tool_use` blocks of the response, re-encoded as history blocks. -/
def respToolUses (bs : List RespBlock) : List Block :=
  bs.filterMap fun b => match b with
    | .toolUse id name input => some (.toolUse id name input)
    | _ => none

/-- A record of the `tool_calls` return value (`\x7b"name", "args", "id"\x7d`). -/
structure ToolCall where
  name : Str
  args : Str
  id : Str
  deriving Repr, DecidableEq

/-- The `tool_calls` collected from the response (duplicates included). -/
def respToolCalls (bs : List RespBlock) : List ToolCall :=
  bs.filterMap fun b => match b with
    | .toolUse id name input => some ⟨name, input, id⟩
    | _ => none

/-- The note appended to the assistant message after tool use. -/
def suffixNote : Str :=
  chars "\n\n(I've just used the requested tool. Let me know if you need any further assistance.)"

/-- The assistant message content stored in history: one text block with
the final `assistant_message` followed by all `tool_use` blocks. -/
def assistantContentOf (bs : List RespBlock) : List Block :=
  .text (respLastText bs) :: respToolUses bs

/-- The post-response part of `run_async`: append the assistant message
directly to the history, dispatch the tool calls, and — when any entries
were produced — append them as one user message via `add_message`, adding
the tool-use note to a non-empty assistant message.  Returns the new
state, the returned text, and the `tool_calls` records. -/
def processResponse (st : LoopState) (runTool : Str → Str → ExecOut)
    (bs : List RespBlock) : LoopState × Str × List ToolCall :=
  let assistant_message := respLastText bs
  let tool_calls := respToolCalls bs
  let st1 : LoopState :=
    { st with conversation_history :=
        st.conversation_history ++ [⟨chars "assistant", .list (assistantContentOf bs)⟩] }
  let d := dispatchToolCalls runTool st1.processed_tool_ids bs
  let st2 : LoopState := { st1 with processed_tool_ids := d.processed }
  if d.entries ≠ [] then
    (add_message st2 (chars "user") (.list d.entries),
     assistant_message ++ (if assistant_message ≠ [] then suffixNote else []),
     tool_calls)
  else (st2, assistant_message, tool_calls)

theorem add_message_user_list (st : LoopState) (items : List Block) :
    (add_message st (chars "user") (.list items)).conversation_history =
      pruneHistory st.conversation_history ++
        [⟨chars "user", .list (items.map addBlock)⟩] := by
  simp [add_message]

theorem outcomeIds_map_addBlock (l : List Block) :
    outcomeIds (l.map addBlock) = outcomeIds l := by
  induction l with
  | nil => rfl
  | cons b l ih =>
      simp only [outcomeIds, List.map_cons, List.filterMap_cons,
        addBlock_keeps_toolResultId]
      simp only [outcomeIds] at ih
      cases h : toolResultId b <;> simp [ih]

/-- **C5 (amended)** — When the response holds an assistant message with
two fresh `ToolInvocation` blocks `t1`, `t2` (in that order), the
dispatcher appends exactly one following user message; its `tool_result`
blocks are exactly the outcomes of `t1` and `t2`, in that order — but each
outcome block is preceded by a non-`tool_result` record entry
(`\x7b"name", "args", "result", "tool_use_id"\x7d`), so the message content does
not consist of the two outcome blocks alone. -/
theorem C5_two_invocations_one_user_message (st : LoopState)
    (runTool : Str → Str → ExecOut) (s t1 n1 i1 t2 n2 i2 : Str)
    (h1 : t1 ∉ st.processed_tool_ids) (h2 : t2 ∉ st.processed_tool_ids)
    (hne : t2 ≠ t1) :
    ∃ items,
      (processResponse st runTool
        [.text s, .toolUse t1 n1 i1, .toolUse t2 n2 i2]).1.conversation_history =
        pruneHistory (st.conversation_history ++
          [⟨chars "assistant", .list (assistantContentOf
            [.text s, .toolUse t1 n1 i1, .toolUse t2 n2 i2])⟩]) ++
          [⟨chars "user", .list items⟩] ∧
      outcomeIds items = [t1, t2] := by
  have hd : dispatchToolCalls runTool st.processed_tool_ids
      [.text s, .toolUse t1 n1 i1, .toolUse t2 n2 i2] =
      ⟨st.processed_tool_ids ++ [t1] ++ [t2],
       [.record n1 i1 (execResult (runTool n1 i1)) t1,
        make_api_tool_result (execResult (runTool n1 i1)) t1,
        .record n2 i2 (execResult (runTool n2 i2)) t2,
        make_api_tool_result (execResult (runTool n2 i2)) t2],
       [t1, t2]⟩ := by
    have h2' : t2 ∉ st.processed_tool_ids ++ [t1] := by
      simp only [List.mem_append, List.mem_singleton]
      rintro (hc | hc)
      · exact h2 hc
      · exact hne hc
    simp only [dispatchToolCalls]
    rw [if_neg h1, if_neg h2']
  refine ⟨(dispatchToolCalls runTool st.processed_tool_ids
    [.text s, .toolUse t1 n1 i1, .toolUse t2 n2 i2]).entries.map addBlock, ?_, ?_⟩
  · simp only [processResponse]
    rw [hd]
    rw [if_pos (by simp)]
    rw [add_message_user_list]
  · rw [outcomeIds_map_addBlock, hd]
    simp only [outcomeIds, List.filterMap_cons, make_api_tool_result_id,
      show ∀ n i r t, toolResultId (Block.record n i r t) = none from
        fun _ _ _ _ => rfl]
    rfl

/-- Evaluation of `processResponse` on a concrete response with two tool
invocations (empty initial state, oracle `demoRunTool`). -/
def cexC5 : LoopState × Str × List ToolCall :=
  processResponse ⟨[], []⟩ demoRunTool
    [.text (chars "hi"),
     .toolUse (chars "t1") (chars "bash") (chars "a"),
     .toolUse (chars "t2") (chars "bash") (chars "b")]

/-- **C5 counterexample** — On a response with two invocations `t1`, `t2`,
the single appended user message holds four entries — a record dict before
each outcome block — so its content does not consist of
`ToolOutcome\x7bt1\x7d` and `ToolOutcome\x7bt2\x7d` alone as the claim states. -/
theorem C5_counterexample :
    cexC5.1.conversation_history =
      [⟨chars "assistant", .list
        [.text (chars "hi"),
         .toolUse (chars "t1") (chars "bash") (chars "a"),
         .toolUse (chars "t2") (chars "bash") (chars "b")]⟩,
       ⟨chars "user", .list
        [.record (chars "bash") (chars "a")
          { output := some (chars "done") } (chars "t1"),
         .toolResult (chars "t1") (.blocks [.text (chars "done")]) (some false),
         .record (chars "bash") (chars "b")
          { output := some (chars "done") } (chars "t2"),
         .toolResult (chars "t2") (.blocks [.text (chars "done")]) (some false)]⟩] ∧
    ¬(cexC5.1.conversation_history =
      [⟨chars "assistant", .list
        [.text (chars "hi"),
         .toolUse (chars "t1") (chars "bash") (chars "a"),
         .toolUse (chars "t2") (chars "bash") (chars "b")]⟩,
       ⟨chars "user", .list
        [.toolResult (chars "t1") (.blocks [.text (chars "done")]) (some false),
         .toolResult (chars "t2") (.blocks [.text (chars "done")]) (some false)]⟩]) := by
  decide

/-- Witness for C5 at concrete inputs. -/
theorem C5_witness :
    ∃ items,
      (processResponse ⟨[], []⟩ demoRunTool
        [.text (chars "hi"),
         .toolUse (chars "t1") (chars "bash") (chars "a"),
         .toolUse (chars "t2") (chars "bash") (chars "b")]).1.conversation_history =
        pruneHistory ([] ++
          [⟨chars "assistant", .list (assistantContentOf
            [.text (chars "hi"),
             .toolUse (chars "t1") (chars "bash") (chars "a"),
             .toolUse (chars "t2") (chars "bash") (chars "b")])⟩]) ++
          [⟨chars "user", .list items⟩] ∧
      outcomeIds items = [chars "t1", chars "t2"] :=
  C5_two_invocations_one_user_message ⟨[], []⟩ demoRunTool
    (chars "hi") (chars "t1") (chars "bash") (chars "a")
    (chars "t2") (chars "bash") (chars "b")
    (by decide) (by decide) (by decide)

/-! ## The retry loop of `run_async` (C4, C6) -/

/-- Outcome of one remote API call attempt: a parsed response or a raised
exception whose `str(e)` is the given string. -/
inductive ApiAttempt
  | ok (resp : List RespBlock)
  | err (e : Str)
  deriving Repr, DecidableEq

/-- `self.max_retries = 3` (set in `AgentLoop.__init__`). -/
def max_retries : Nat := 3

/-- `"prompt is too long" in str(e)` — the size-limit error test. -/
def isTooLong (e : Str) : Bool := pyIn (chars "prompt is too long") e

/-- The tool-id pairing error test (two alternative provider messages). -/
def isPairingError (e : Str) : Bool :=
  pyIn (chars "unexpected `tool_use_id` found in `tool_result` blocks") e ||
  pyIn (chars "Each `tool_result` block must have a corresponding `tool_use` block") e

/-- `AgentLoop.clear_history`: reset `processed_tool_ids` and drop the
whole history (the write-through save is a side effect). -/
def clear_history (_st : LoopState) : LoopState := ⟨[], []⟩

/-- Result of the retry loop: the response that broke the loop with the
number of attempts made, or the last error after exhausting the retries. -/
inductive RetryOut
  | success (resp : List RespBlock) (made : Nat)
  | failure (lastErr : Str) (made : Nat)
  deriving Repr, DecidableEq

/-- State update of the `except` block: a size-limit or pairing error
clears the history and re-appends the current user input; any other error
leaves the state unchanged. -/
def errStep (input : Str) (st : LoopState) (e : Str) : LoopState :=
  if isTooLong e || isPairingError e then
    add_message (clear_history st) (chars "user") (.str input)
  else st

/-- The `for attempt in range(self.max_retries)` loop: on failure classify
the error via `errStep`; when attempts remain, retry (after a backoff
sleep, irrelevant to state), otherwise report the failure.  `attempts i`
is the outcome of the `i`-th remote call; `fuel` is the number of
remaining iterations (`max_retries - i`). -/
def retryAux (input : Str) (attempts : Nat → ApiAttempt) :
    Nat → Nat → LoopState → LoopState × RetryOut
  | 0, i, st => (st, .failure [] i)
  | fuel + 1, i, st =>
      match attempts i with
      | .ok resp => (st, .success resp (i + 1))
      | .err e =>
          if i < max_retries - 1 then
            retryAux input attempts fuel (i + 1) (errStep input st e)
          else (errStep input st e, .failure e (i + 1))

/-- The graceful message returned after exhausting all retries. -/
def gracefulApiError (e : Str) : Str :=
  chars "I encountered an error communicating with the API after 3 attempts: " ++ e

/-- `AgentLoop.run_async`: append the user input, run the bounded retry
loop, and either return the graceful failure text with no tool calls, or
process the successful response.  (The `if not response` fallback after
the loop is unreachable here: the loop either breaks with a response or
returns inside the last `except`.) -/
def run_async (st : LoopState) (input : Str) (attempts : Nat → ApiAttempt)
    (runTool : Str → Str → ExecOut) : LoopState × Str × List ToolCall :=
  let st0 := add_message st (chars "user") (.str input)
  match retryAux input attempts max_retries 0 st0 with
  | (st1, .failure e _) => (st1, gracefulApiError e, [])
  | (st1, .success resp _) => processResponse st1 runTool resp

/-- The number of remote-call attempts `run_async` makes. -/
def attemptsMade (st : LoopState) (input : Str) (attempts : Nat → ApiAttempt) : Nat :=
  match retryAux input attempts max_retries 0
      (add_message st (chars "user") (.str input)) with
  | (_, .success _ n) => n
  | (_, .failure _ n) => n

theorem retryAux_made_le (input : Str) (attempts : Nat → ApiAttempt) :
    ∀ (fuel i : Nat) (st : LoopState),
      (match retryAux input attempts fuel i st with
        | (_, .success _ n) => n
        | (_, .failure _ n) => n) ≤ i + fuel := by
  intro fuel
  induction fuel with
  | zero =>
      intro i st
      simp [retryAux]
  | succ fuel ih =>
      intro i st
      simp only [retryAux]
      cases attempts i with
      | ok resp => simp
      | err e =>
          simp only
          by_cases hlt : i < max_retries - 1
          · rw [if_pos hlt]
            have := ih (i + 1)
            calc (match retryAux input attempts fuel (i + 1) _ with
                | (_, .success _ n) => n
                | (_, .failure _ n) => n) ≤ i + 1 + fuel := ih (i + 1) _
              _ = i + (fuel + 1) := by omega
          · rw [if_neg hlt]
            simp

theorem retryAux_succ (input : Str) (attempts : Nat → ApiAttempt)
    (fuel i : Nat) (st : LoopState) :
    retryAux input attempts (fuel + 1) i st =
      match attempts i with
      | .ok resp => (st, .success resp (i + 1))
      | .err e =>
          if i < max_retries - 1 then
            retryAux input attempts fuel (i + 1) (errStep input st e)
          else (errStep input st e, .failure e (i + 1)) := rfl

theorem retryAux_three_failures (input : Str) (attempts : Nat → ApiAttempt)
    (st0 : LoopState) (e0 e1 e2 : Str)
    (h0 : attempts 0 = .err e0) (h1 : attempts 1 = .err e1)
    (h2 : attempts 2 = .err e2) :
    retryAux input attempts 3 0 st0 =
      (errStep input (errStep input (errStep input st0 e0) e1) e2,
       .failure e2 3) := by
  simp only [retryAux_succ, h0, h1, h2, max_retries]
  norm_num

/-- **C4** — For every user turn and every sequence of remote-call
failures, the retry loop makes at most `max_retries` (3) remote-call
attempts; and when all three attempts fail, `run_async` returns the
graceful user-visible error message built from the last error, paired
with an empty list of tool calls, instead of raising (the model is a
total function, mirroring the `return` inside the final `except`). -/
theorem C4_bounded_retries (st : LoopState) (input : Str)
    (attempts : Nat → ApiAttempt) (runTool : Str → Str → ExecOut) :
    (attemptsMade st input attempts ≤ max_retries) ∧
    (∀ e0 e1 e2, attempts 0 = .err e0 → attempts 1 = .err e1 →
      attempts 2 = .err e2 →
      ∃ st', run_async st input attempts runTool =
        (st', gracefulApiError e2, [])) := by
  constructor
  · have h := retryAux_made_le input attempts max_retries 0
      (add_message st (chars "user") (.str input))
    simp only [attemptsMade]
    simpa using h
  · intro e0 e1 e2 h0 h1 h2
    refine ⟨errStep input (errStep input (errStep input
      (add_message st (chars "user") (.str input)) e0) e1) e2, ?_⟩
    simp only [run_async, max_retries]
    rw [retryAux_three_failures input attempts _ e0 e1 e2 h0 h1 h2]

/-- Witness for C4: all three attempts fail with short messages; the loop
returns the graceful message and no tool calls, with 3 attempts made. -/
theorem C4_witness :
    ∃ st', run_async ⟨[], []⟩ (chars "hello")
        (fun i => .err (if i = 0 then chars "boom0"
          else if i = 1 then chars "boom1" else chars "boom2"))
        demoRunTool =
      (st', gracefulApiError (chars "boom2"), []) :=
  (C4_bounded_retries ⟨[], []⟩ (chars "hello")
    (fun i => .err (if i = 0 then chars "boom0"
      else if i = 1 then chars "boom1" else chars "boom2"))
    demoRunTool).2 (chars "boom0") (chars "boom1") (chars "boom2")
    (by decide) (by decide) (by decide)

theorem add_message_str (st : LoopState) (role s : Str) :
    add_message st role (.str s) =
      ⟨pruneHistory st.conversation_history ++ [⟨role, .str s⟩],
       st.processed_tool_ids⟩ := by
  simp only [add_message]
  by_cases h : role = chars "user"
  · rw [if_pos h]
  · rw [if_neg h]

/-- Does a message carry exactly the given user input? -/
def isUserInputMsg (input : Str) (m : Msg) : Bool :=
  decide (m.role = chars "user" ∧ m.content = MContent.str input)

/-- How many stored messages carry the given user input. -/
def userInputCount (h : List Msg) (input : Str) : Nat :=
  (h.filter (isUserInputMsg input)).length

theorem retryAux_toolong_then_ok (st : LoopState) (input : Str)
    (attempts : Nat → ApiAttempt) (e : Str) (resp : List RespBlock)
    (h0 : attempts 0 = .err e) (htl : isTooLong e = true)
    (h1 : attempts 1 = .ok resp) :
    retryAux input attempts 3 0 (add_message st (chars "user") (.str input)) =
      (⟨[⟨chars "user", .str input⟩], []⟩, .success resp 2) := by
  simp only [retryAux_succ, h0, h1, max_retries]
  norm_num
  simp only [errStep, htl, Bool.true_or, if_true, clear_history]
  rw [add_message_str]
  rw [show pruneHistory [] = [] from rfl]
  rfl

/-- **C6** — If the remote call fails on attempt 1 with a size-limit error
("prompt is too long") and attempt 2 succeeds, the store is fully cleared
(history and `processed_tool_ids`), the same user input is re-appended
exactly once, and — provided the successful turn stays under the pruning
budget — the final stored history starts with that single user-input
message followed by the assistant message, and contains exactly one user
message carrying that input, not two. -/
theorem C6_size_limit_reset (st : LoopState) (input : Str)
    (attempts : Nat → ApiAttempt) (runTool : Str → Str → ExecOut)
    (e : Str) (resp : List RespBlock)
    (h0 : attempts 0 = .err e) (htl : isTooLong e = true)
    (h1 : attempts 1 = .ok resp)
    (hsmall : ¬(approxTokens [⟨chars "user", .str input⟩,
        ⟨chars "assistant", .list (assistantContentOf resp)⟩] > maxTokenLimit)) :
    ∃ rest,
      (run_async st input attempts runTool).1.conversation_history =
        ⟨chars "user", .str input⟩ ::
          ⟨chars "assistant", .list (assistantContentOf resp)⟩ :: rest ∧
      userInputCount
        (run_async st input attempts runTool).1.conversation_history input = 1 := by
  have hA : isUserInputMsg input ⟨chars "user", .str input⟩ = true :=
    decide_eq_true ⟨rfl, rfl⟩
  have hB : isUserInputMsg input
      ⟨chars "assistant", .list (assistantContentOf resp)⟩ = false :=
    decide_eq_false (fun hp => absurd hp.1
      (show ¬(chars "assistant" = chars "user") by decide))
  have hC : ∀ items, isUserInputMsg input ⟨chars "user", .list items⟩ = false :=
    fun items => decide_eq_false (fun hp => MContent.noConfusion hp.2)
  simp only [run_async, max_retries]
  rw [retryAux_toolong_then_ok st input attempts e resp h0 htl h1]
  simp only [processResponse]
  by_cases hent : (dispatchToolCalls runTool
      ([] : List Str) resp).entries = []
  · rw [if_neg (by simpa using hent)]
    refine ⟨[], rfl, ?_⟩
    simp [userInputCount, List.filter_cons, hA, hB]
  · rw [if_pos (by simpa using hent)]
    rw [add_message_user_list]
    rw [show (⟨[⟨chars "user", .str input⟩], []⟩ : LoopState).conversation_history ++
        [⟨chars "assistant", .list (assistantContentOf resp)⟩] =
      [⟨chars "user", .str input⟩,
       ⟨chars "assistant", .list (assistantContentOf resp)⟩] from rfl]
    rw [show pruneHistory [⟨chars "user", .str input⟩,
        ⟨chars "assistant", .list (assistantContentOf resp)⟩] =
      [⟨chars "user", .str input⟩,
       ⟨chars "assistant", .list (assistantContentOf resp)⟩] from by
        rw [pruneHistory, if_neg hsmall]]
    refine ⟨[⟨chars "user", .list ((dispatchToolCalls runTool
      ([] : List Str) resp).entries.map addBlock)⟩], rfl, ?_⟩
    simp [userInputCount, List.filter_cons, hA, hB, hC]

/-- Attempt sequence for the C6 witness: a size-limit error, then success. -/
def attemptsC6 : Nat → ApiAttempt := fun i =>
  if i = 0 then .err (chars "prompt is too long") else .ok [.text (chars "ok")]

/-- Witness for C6 at concrete inputs. -/
theorem C6_witness :
    ∃ rest,
      (run_async ⟨[], []⟩ (chars "hi")
        attemptsC6 demoRunTool).1.conversation_history =
        ⟨chars "user", .str (chars "hi")⟩ ::
          ⟨chars "assistant",
            .list (assistantContentOf [.text (chars "ok")])⟩ :: rest ∧
      userInputCount
        (run_async ⟨[], []⟩ (chars "hi")
          attemptsC6 demoRunTool).1.conversation_history (chars "hi") = 1 :=
  C6_size_limit_reset ⟨[], []⟩ (chars "hi") attemptsC6 demoRunTool
    (chars "prompt is too long") [.text (chars "ok")]
    (by decide) (by decide) (by decide) (by decide)

/-! ## `AgentLoop.get_sanitized_conversation_history` (C1, C2)

Phase 1 collects the `tool_use` ids of assistant messages and the
`tool_result` blocks of user messages (dict insertion keeps the **last**
occurrence); `valid_tool_ids` is their intersection.  Phase 2 re-walks the
messages, keeping text and fresh valid `tool_use` blocks in assistant
messages and synthesizing one user message per kept invocation, carrying
the looked-up `tool_result`; user messages keep fresh valid results in
place, or pass through when they have no results at all, or are dropped
entirely.  A final truncation applies when the result is still over
budget. -/

/-- Is this block a `tool_use` with the given (truthy) id? -/
def blockIsUse (t : Str) : Block → Bool
  | .toolUse id _ _ => decide (id ≠ [] ∧ id = t)
  | _ => false

/-- Does this assistant message contribute `t` to `tool_uses`? -/
def msgHasUse (t : Str) (m : Msg) : Bool :=
  decide (m.role = chars "assistant") &&
    (match m.content with
      | .list bs => bs.any (blockIsUse t)
      | _ => false)

/-- `t ∈ tool_uses` after phase 1. -/
def usesHas (h : List Msg) (t : Str) : Bool := h.any (msgHasUse t)

/-- Is this block a `tool_result` with the given (truthy) id? -/
def blockIsRes (t : Str) : Block → Bool
  | .toolResult tuid _ _ => decide (tuid ≠ [] ∧ tuid = t)
  | _ => false

/-- The `tool_result` blocks for `t` contributed by one user message. -/
def msgResBlocks (t : Str) (m : Msg) : List Block :=
  match m with
  | ⟨r, .list bs⟩ => if r = chars "user" then bs.filter (blockIsRes t) else []
  | _ => []

/-- `tool_results[t]` after phase 1: the **last** collected occurrence
(later messages and later items overwrite earlier ones). -/
def resultFor (t : Str) : List Msg → Option Block
  | [] => none
  | m :: rest =>
      match resultFor t rest with
      | some b => some b
      | none => (msgResBlocks t m).getLast?

/-- `t ∈ valid_tool_ids` (= uses ∩ results). -/
def validB (h : List Msg) (t : Str) : Bool :=
  usesHas h t && (resultFor t h).isSome

/-- The filter applied to assistant content: keep text blocks, keep
`tool_use` blocks that are truthy, valid and not yet processed, keep
non-dict items, drop every other dict. -/
def keepAItem (H : List Msg) (processed : List Str) : Block → Bool
  | .text _ => true
  | .toolUse id _ _ =>
      decide (id ≠ []) && validB H id && decide (id ∉ processed)
  | .nonDict _ => true
  | _ => false

/-- Ordered-set insertion (Python `set.add`, iteration modelled in
insertion order). -/
def insertNew (l : List Str) (x : Str) : List Str :=
  if x ∈ l then l else l ++ [x]

/-- The loop populating `tool_use_ids_in_message`. -/
def kFold (acc : List Str) : List Block → List Str
  | [] => acc
  | .toolUse id _ _ :: bs => kFold (insertNew acc id) bs
  | .text _ :: bs | .toolResult _ _ _ :: bs | .record _ _ _ _ :: bs
  | .nonDict _ :: bs | .otherDict _ _ :: bs => kFold acc bs

/-- `tool_use_ids_in_message`: the ids of the kept `tool_use` blocks, in
first-occurrence order. -/
def keptUseIds (bs : List Block) : List Str := kFold [] bs

/-- The loop synthesizing one user message per kept invocation id: skip
ids without a collected result or already processed, otherwise mark
processed and emit `\x7b"role": "user", "content": [tool_results[id]]\x7d`. -/
def synthOut (H : List Msg) : List Str → List Str → List Msg × List Str
  | [], p => ([], p)
  | t :: ts, p =>
      if (resultFor t H).isSome ∧ t ∉ p then
        let rec' := synthOut H ts (p ++ [t])
        (⟨chars "user", .list [(resultFor t H).getD (.text [])]⟩ :: rec'.1,
         rec'.2)
      else synthOut H ts p

/-- The item loop of the user-message branch: skip already-processed or
invalid `tool_result` items, keep fresh valid ones (marking them
processed), keep every other item.  Returns the new content, the
`has_tool_results` flag, and the updated processed set. -/
def userWalk (H : List Msg) : List Block → List Str → List Block × Bool × List Str
  | [], p => ([], false, p)
  | b :: bs, p =>
      match b with
      | .toolResult tuid c e =>
          if tuid ∈ p then userWalk H bs p
          else if validB H tuid = false then userWalk H bs p
          else
            let r := userWalk H bs (p ++ [tuid])
            (.toolResult tuid c e :: r.1, true, r.2.2)
      | b =>
          let r := userWalk H bs p
          (b :: r.1, r.2.1, r.2.2)

/-- One step of the phase-2 walk over a message, given the full history
`H` (for the phase-1 lookups) and the processed set. -/
def sanStep (H : List Msg) (processed : List Str) (m : Msg) :
    List Msg × List Str :=
  match m with
  | ⟨r, .list bs⟩ =>
      if r = chars "assistant" then
        let nc := bs.filter (keepAItem H processed)
        if nc = [] then ([], processed)
        else
          let ts := keptUseIds nc
          let so := synthOut H ts processed
          (⟨r, .list nc⟩ :: so.1, so.2)
      else if r = chars "user" then
        let uw := userWalk H bs processed
        if uw.2.1 then ([⟨r, .list uw.1⟩], uw.2.2)
        else if bs.any (fun b => (toolResultId b).isSome) then ([], uw.2.2)
        else ([m], uw.2.2)
      else ([], processed)
  | ⟨r, .str s⟩ => ([⟨r, .str s⟩], processed)

/-- The phase-2 walk. -/
def sanWalk (H : List Msg) : List Msg → List Str → List Msg
  | [], _ => []
  | m :: rest, p =>
      let st := sanStep H p m
      st.1 ++ sanWalk H rest st.2

/-- Phases 1–2 of `get_sanitized_conversation_history`. -/
def sanitizeCore (h : List Msg) : List Msg := sanWalk h h []

/-- A "pure" user message: role user and either string content or no
`tool_result` item (the predicate of lines 583–587). -/
def isPureUserMsg (m : Msg) : Bool :=
  decide (m.role = chars "user") &&
    (match m.content with
      | .str _ => true
      | .list bs => !(bs.any fun b => (toolResultId b).isSome))

/-- Index of the most recent pure user message. -/
def lastPureUserIdx (S : List Msg) : Option Nat :=
  (List.range S.length).reverse.find? fun i =>
    isPureUserMsg (S.getD i ⟨[], .str []⟩)

/-- The secondary truncation of the sanitized view (lines 579–598). -/
def sanTrunc (S : List Msg) : List Msg :=
  if approxTokens S > maxTokenLimit ∧ S.length > 2 then
    match lastPureUserIdx S with
    | some i => S.drop i
    | none => S.drop (S.length - 1)
  else S

/-- `AgentLoop.get_sanitized_conversation_history`. -/
def get_sanitized_conversation_history (h : List Msg) : List Msg :=
  sanTrunc (sanitizeCore h)

/-! ### C1/C2 counterexamples -/

/-- A history in which a (valid) `tool_result` precedes its matching
`tool_use`: the sanitizer keeps the result in place and then drops the
`tool_use` (already processed), leaving an orphan outcome. -/
def cexOrphan : List Msg :=
  [⟨chars "user", .list
    [.toolResult (chars "t") (.str (chars "out")) (some false)]⟩,
   ⟨chars "assistant", .list
    [.toolUse (chars "t") (chars "bash") (chars "x")]⟩]

/-- **C2 counterexample** — Sanitization is not idempotent: on
`cexOrphan` the first pass yields a lone user message with an orphan
`ToolOutcome` (its invocation was dropped as already-processed), and the
second pass deletes that message, so `sanitize (sanitize h) ≠ sanitize h`. -/
theorem C2_counterexample :
    get_sanitized_conversation_history
        (get_sanitized_conversation_history cexOrphan) ≠
      get_sanitized_conversation_history cexOrphan := by
  decide

/-- An assistant message with two invocations answered in one user
message. -/
def cexTwoUses : List Msg :=
  [⟨chars "assistant", .list
    [.toolUse (chars "t1") (chars "bash") (chars "x"),
     .toolUse (chars "t2") (chars "bash") (chars "y")]⟩,
   ⟨chars "user", .list
    [.toolResult (chars "t1") (.str (chars "o1")) (some false),
     .toolResult (chars "t2") (.str (chars "o2")) (some false)]⟩]

/-- Count of `ToolOutcome` blocks with the given id in a message. -/
def msgOutcomeCount (m : Msg) (t : Str) : Nat :=
  match m.content with
  | .list bs => (bs.filter fun b => decide (toolResultId b = some t)).length
  | _ => 0

/-- **C1 counterexample** — The sanitized view of `cexTwoUses` keeps both
invocations `t1`, `t2` in the assistant message but synthesizes one user
message **per** outcome; the user message immediately following the
assistant message carries only `ToolOutcome\x7bt1\x7d` and zero outcomes
matching `t2`, refuting "exactly one matching ToolOutcome in the user
message immediately following" for `t2`. -/
theorem C1_counterexample :
    get_sanitized_conversation_history cexTwoUses =
      [⟨chars "assistant", .list
        [.toolUse (chars "t1") (chars "bash") (chars "x"),
         .toolUse (chars "t2") (chars "bash") (chars "y")]⟩,
       ⟨chars "user", .list
        [.toolResult (chars "t1") (.str (chars "o1")) (some false)]⟩,
       ⟨chars "user", .list
        [.toolResult (chars "t2") (.str (chars "o2")) (some false)]⟩] ∧
    msgOutcomeCount
      ((get_sanitized_conversation_history cexTwoUses).getD 1 ⟨[], .str []⟩)
      (chars "t2") = 0 := by
  decide

/-! ### Properties of the phase-1 collectors and the walk components -/

theorem insertNew_mem (l : List Str) (x t : Str) :
    t ∈ insertNew l x ↔ t ∈ l ∨ t = x := by
  unfold insertNew
  split
  · rename_i hx
    constructor
    · exact Or.inl
    · rintro (h | rfl)
      · exact h
      · exact hx
  · simp [List.mem_append]

theorem insertNew_nodup (l : List Str) (x : Str) (h : l.Nodup) :
    (insertNew l x).Nodup := by
  unfold insertNew
  split
  · exact h
  · rename_i hx
    simp [List.nodup_append, h, hx]

theorem kFold_mem : ∀ (bs : List Block) (acc : List Str) (t : Str),
    t ∈ kFold acc bs ↔ t ∈ acc ∨ ∃ n i, Block.toolUse t n i ∈ bs := by
  intro bs
  induction bs with
  | nil => simp [kFold]
  | cons b bs ih =>
      intro acc t
      match b with
      | .toolUse id n i =>
          rw [show kFold acc (Block.toolUse id n i :: bs) =
            kFold (insertNew acc id) bs from rfl, ih]
          rw [insertNew_mem]
          simp only [List.mem_cons]
          constructor
          · rintro ((h | rfl) | ⟨n', i', h⟩)
            · exact Or.inl h
            · exact Or.inr ⟨n, i, Or.inl rfl⟩
            · exact Or.inr ⟨n', i', Or.inr h⟩
          · rintro (h | ⟨n', i', h | h⟩)
            · exact Or.inl (Or.inl h)
            · injection h with h1 h2 h3
              exact Or.inl (Or.inr h1)
            · exact Or.inr ⟨n', i', h⟩
      | .text u =>
          rw [show kFold acc (Block.text u :: bs) = kFold acc bs from rfl, ih]
          constructor
          · rintro (h | ⟨n', i', h⟩)
            · exact Or.inl h
            · exact Or.inr ⟨n', i', List.mem_cons_of_mem _ h⟩
          · rintro (h | ⟨n', i', h⟩)
            · exact Or.inl h
            · rcases List.mem_cons.mp h with h | h
              · exact absurd h (by intro hc; cases hc)
              · exact Or.inr ⟨n', i', h⟩
      | .toolResult u c e =>
          rw [show kFold acc (Block.toolResult u c e :: bs) = kFold acc bs from rfl, ih]
          constructor
          · rintro (h | ⟨n', i', h⟩)
            · exact Or.inl h
            · exact Or.inr ⟨n', i', List.mem_cons_of_mem _ h⟩
          · rintro (h | ⟨n', i', h⟩)
            · exact Or.inl h
            · rcases List.mem_cons.mp h with h | h
              · exact absurd h (by intro hc; cases hc)
              · exact Or.inr ⟨n', i', h⟩
      | .record u a r v =>
          rw [show kFold acc (Block.record u a r v :: bs) = kFold acc bs from rfl, ih]
          constructor
          · rintro (h | ⟨n', i', h⟩)
            · exact Or.inl h
            · exact Or.inr ⟨n', i', List.mem_cons_of_mem _ h⟩
          · rintro (h | ⟨n', i', h⟩)
            · exact Or.inl h
            · rcases List.mem_cons.mp h with h | h
              · exact absurd h (by intro hc; cases hc)
              · exact Or.inr ⟨n', i', h⟩
      | .nonDict u =>
          rw [show kFold acc (Block.nonDict u :: bs) = kFold acc bs from rfl, ih]
          constructor
          · rintro (h | ⟨n', i', h⟩)
            · exact Or.inl h
            · exact Or.inr ⟨n', i', List.mem_cons_of_mem _ h⟩
          · rintro (h | ⟨n', i', h⟩)
            · exact Or.inl h
            · rcases List.mem_cons.mp h with h | h
              · exact absurd h (by intro hc; cases hc)
              · exact Or.inr ⟨n', i', h⟩
      | .otherDict u v =>
          rw [show kFold acc (Block.otherDict u v :: bs) = kFold acc bs from rfl, ih]
          constructor
          · rintro (h | ⟨n', i', h⟩)
            · exact Or.inl h
            · exact Or.inr ⟨n', i', List.mem_cons_of_mem _ h⟩
          · rintro (h | ⟨n', i', h⟩)
            · exact Or.inl h
            · rcases List.mem_cons.mp h with h | h
              · exact absurd h (by intro hc; cases hc)
              · exact Or.inr ⟨n', i', h⟩

theorem kFold_nodup : ∀ (bs : List Block) (acc : List Str),
    acc.Nodup → (kFold acc bs).Nodup := by
  intro bs
  induction bs with
  | nil => exact fun acc h => h
  | cons b bs ih =>
      intro acc hacc
      match b with
      | .toolUse id n i =>
          exact ih (insertNew acc id) (insertNew_nodup acc id hacc)
      | .text u => exact ih acc hacc
      | .toolResult u c e => exact ih acc hacc
      | .record u a r v => exact ih acc hacc
      | .nonDict u => exact ih acc hacc
      | .otherDict u v => exact ih acc hacc

theorem keptUseIds_mem (bs : List Block) (t : Str) :
    t ∈ keptUseIds bs ↔ ∃ n i, Block.toolUse t n i ∈ bs := by
  rw [show keptUseIds bs = kFold [] bs from rfl, kFold_mem]
  simp

theorem keptUseIds_nodup (bs : List Block) : (keptUseIds bs).Nodup :=
  kFold_nodup bs [] List.nodup_nil

theorem resultFor_append (t : Str) (A B : List Msg) :
    resultFor t (A ++ B) =
      match resultFor t B with
      | some b => some b
      | none => resultFor t A := by
  induction A with
  | nil =>
      simp only [List.nil_append]
      cases h : resultFor t B <;> rfl
  | cons m A ih =>
      rw [List.cons_append]
      rw [show resultFor t (m :: (A ++ B)) =
        (match resultFor t (A ++ B) with
         | some b => some b
         | none => (msgResBlocks t m).getLast?) from rfl]
      rw [ih]
      rw [show resultFor t (m :: A) =
        (match resultFor t A with
         | some b => some b
         | none => (msgResBlocks t m).getLast?) from rfl]
      cases resultFor t B <;> cases resultFor t A <;> rfl

theorem resultFor_is_toolResult (t : Str) :
    ∀ (H : List Msg) (b : Block), resultFor t H = some b →
      ∃ c e, b = .toolResult t c e := by
  intro H
  induction H with
  | nil => intro b h; cases h
  | cons m rest ih =>
      intro b h
      simp only [resultFor] at h
      cases hr : resultFor t rest with
      | some b' =>
          rw [hr] at h
          injection h with h
          exact h ▸ ih b' hr
      | none =>
          rw [hr] at h
          have hmem : b ∈ msgResBlocks t m := by
            have h1 : b ∈ (msgResBlocks t m).getLast? := Option.mem_def.mpr h
            obtain ⟨hne, heq⟩ := List.mem_getLast?_eq_getLast h1
            rw [heq]
            exact List.getLast_mem hne
          match m with
          | ⟨r, .str s⟩ => simp [msgResBlocks] at hmem
          | ⟨r, .list bs⟩ =>
              simp only [msgResBlocks] at hmem
              by_cases hru : r = chars "user"
              · rw [if_pos hru] at hmem
                have := List.of_mem_filter hmem
                match b with
                | .toolResult tuid c e =>
                    simp only [blockIsRes, decide_eq_true_eq] at this
                    exact ⟨c, e, by rw [this.2]⟩
                | .text u | .toolUse u n i | .record u a rr v | .nonDict u
                | .otherDict u v => simp [blockIsRes] at this
              · rw [if_neg hru] at hmem
                cases hmem

theorem userWalk_cons_result (H : List Msg) (tuid : Str) (c : RContent)
    (e : Option Bool) (bs : List Block) (p : List Str) :
    userWalk H (.toolResult tuid c e :: bs) p =
      if tuid ∈ p then userWalk H bs p
      else if validB H tuid = false then userWalk H bs p
      else (.toolResult tuid c e :: (userWalk H bs (p ++ [tuid])).1, true,
            (userWalk H bs (p ++ [tuid])).2.2) := rfl

theorem userWalk_cons_other (H : List Msg) (b : Block) (bs : List Block)
    (p : List Str) (hb : toolResultId b = none) :
    userWalk H (b :: bs) p =
      (b :: (userWalk H bs p).1, (userWalk H bs p).2.1,
       (userWalk H bs p).2.2) := by
  match b with
  | .text u => rfl
  | .toolUse u n i => rfl
  | .record u a r v => rfl
  | .nonDict u => rfl
  | .otherDict u v => rfl
  | .toolResult u c e => simp [toolResultId] at hb

theorem userWalk_no_results (H : List Msg) :
    ∀ (bs : List Block) (p : List Str), (∀ b ∈ bs, toolResultId b = none) →
      userWalk H bs p = (bs, false, p) := by
  intro bs
  induction bs with
  | nil => intro p _; rfl
  | cons b bs ih =>
      intro p h
      rw [userWalk_cons_other H b bs p (h b (List.mem_cons_self _ _))]
      rw [ih p (fun b' hb => h b' (List.mem_cons_of_mem _ hb))]

theorem userWalk_all_skipped (H : List Msg) :
    ∀ (bs : List Block) (p : List Str),
      (∀ tuid c e, Block.toolResult tuid c e ∈ bs →
        tuid ∈ p ∨ validB H tuid = false) →
      (userWalk H bs p).2.1 = false ∧ (userWalk H bs p).2.2 = p := by
  intro bs
  induction bs with
  | nil => intro p _; exact ⟨rfl, rfl⟩
  | cons b bs ih =>
      intro p h
      have hrest := ih p (fun u c' e' hb => h u c' e' (List.mem_cons_of_mem _ hb))
      match b with
      | .toolResult tuid c e =>
          have hske := h tuid c e (List.mem_cons_self _ _)
          rw [userWalk_cons_result]
          rcases hske with hp | hv
          · rw [if_pos hp]
            exact hrest
          · by_cases hp : tuid ∈ p
            · rw [if_pos hp]
              exact hrest
            · rw [if_neg hp, if_pos hv]
              exact hrest
      | .text u =>
          rw [userWalk_cons_other H (Block.text u) bs p rfl]
          exact hrest
      | .toolUse u n i =>
          rw [userWalk_cons_other H (Block.toolUse u n i) bs p rfl]
          exact hrest
      | .record u a r v =>
          rw [userWalk_cons_other H (Block.record u a r v) bs p rfl]
          exact hrest
      | .nonDict u =>
          rw [userWalk_cons_other H (Block.nonDict u) bs p rfl]
          exact hrest
      | .otherDict u v =>
          rw [userWalk_cons_other H (Block.otherDict u v) bs p rfl]
          exact hrest

theorem synthOut_eq (H : List Msg) :
    ∀ (ts : List Str) (rs : List Block) (p : List Str)
      (hlen : rs.length = ts.length),
      (∀ j (hj : j < ts.length),
        resultFor (ts.get ⟨j, hj⟩) H = some (rs.get ⟨j, by omega⟩)) →
      ts.Nodup → (∀ t ∈ ts, t ∉ p) →
      synthOut H ts p =
        (rs.map fun r => ⟨chars "user", .list [r]⟩, p ++ ts) := by
  intro ts
  induction ts with
  | nil =>
      intro rs p hlen _ _ _
      rw [List.length_nil] at hlen
      rw [List.eq_nil_of_length_eq_zero hlen]
      simp [synthOut]
  | cons t ts ih =>
      intro rs p hlen hres hnd hfresh
      match rs with
      | [] => simp at hlen
      | r :: rs =>
          have hres0 : resultFor t H = some r := hres 0 (by simp)
          have hcond : (resultFor t H).isSome ∧ t ∉ p := by
            rw [hres0]
            exact ⟨rfl, hfresh t (List.mem_cons_self _ _)⟩
          rw [show synthOut H (t :: ts) p =
            (if (resultFor t H).isSome ∧ t ∉ p then
              (⟨chars "user", .list [(resultFor t H).getD (.text [])]⟩ ::
                (synthOut H ts (p ++ [t])).1, (synthOut H ts (p ++ [t])).2)
            else synthOut H ts p) from rfl]
          rw [if_pos hcond]
          have hih := ih rs (p ++ [t])
            (by simpa using hlen)
            (fun j hj => hres (j + 1) (by simpa using hj))
            (List.Nodup.of_cons hnd)
            (fun t' ht' => by
              simp only [List.mem_append, List.mem_singleton]
              rintro (hc | rfl)
              · exact hfresh t' (List.mem_cons_of_mem _ ht') hc
              · exact (List.nodup_cons.mp hnd).1 ht')
          rw [hih, hres0]
          simp [List.append_assoc]

/-! ### The shape of sanitizer output: segments -/

/-- A segment of the sanitized view: a pass-through string message, a
pass-through user message without tool results, or an assistant message
followed by its synthesized singleton outcome messages. -/
inductive SanSeg
  | strMsg (r s : Str)
  | userPlain (bs : List Block)
  | group (bs : List Block) (rs : List Block)

/-- The messages of one segment. -/
def segMsgs : SanSeg → List Msg
  | .strMsg r s => [⟨r, .str s⟩]
  | .userPlain bs => [⟨chars "user", .list bs⟩]
  | .group bs rs =>
      ⟨chars "assistant", .list bs⟩ ::
        rs.map fun b => ⟨chars "user", .list [b]⟩

/-- The messages of a segment list. -/
def segsMsgs (segs : List SanSeg) : List Msg := (segs.map segMsgs).flatten

theorem segsMsgs_cons (seg : SanSeg) (segs : List SanSeg) :
    segsMsgs (seg :: segs) = segMsgs seg ++ segsMsgs segs := by
  simp [segsMsgs]

/-- An item the assistant filter can keep. -/
def goodAItem : Block → Prop
  | .text _ => True
  | .toolUse _ _ _ => True
  | .nonDict _ => True
  | _ => False

/-- Well-formed segment lists: the invariant of sanitizer output.  `p`
models the processed ids accumulated before this point; each group's
invocation ids are fresh, truthy and duplicate-free, and its singles carry
one matching `tool_result` each, in invocation order. -/
inductive WF : List Str → List SanSeg → Prop
  | nil (p : List Str) : WF p []
  | strMsg (p : List Str) (r s : Str) (segs : List SanSeg) :
      WF p segs → WF p (.strMsg r s :: segs)
  | userPlain (p : List Str) (bs : List Block) (segs : List SanSeg)
      (hnr : ∀ b ∈ bs, toolResultId b = none) :
      WF p segs → WF p (.userPlain bs :: segs)
  | group (p : List Str) (bs rs : List Block) (segs : List SanSeg)
      (hne : bs ≠ [])
      (hitems : ∀ b ∈ bs, goodAItem b)
      (htruthy : ∀ id n i, Block.toolUse id n i ∈ bs → id ≠ [])
      (hfresh : ∀ t ∈ keptUseIds bs, t ∉ p)
      (hlen : rs.length = (keptUseIds bs).length)
      (hrs : ∀ j (hj : j < (keptUseIds bs).length),
        ∃ c e, rs.get ⟨j, by omega⟩ =
          .toolResult ((keptUseIds bs).get ⟨j, hj⟩) c e)
      (hW : WF (p ++ keptUseIds bs) segs) :
      WF p (.group bs rs :: segs)

/-- The (invocation id, result block) pairs of a segment list. -/
def segPairs : SanSeg → List (Str × Block)
  | .group bs rs => (keptUseIds bs).zip rs
  | _ => []

def segsPairs (segs : List SanSeg) : List (Str × Block) :=
  (segs.map segPairs).flatten

theorem segsPairs_cons (seg : SanSeg) (segs : List SanSeg) :
    segsPairs (seg :: segs) = segPairs seg ++ segsPairs segs := by
  simp [segsPairs]

theorem mem_zip_index {α β : Type} :
    ∀ (xs : List α) (ys : List β) (x : α) (y : β), (x, y) ∈ xs.zip ys →
      ∃ j, xs.get? j = some x ∧ ys.get? j = some y := by
  intro xs
  induction xs with
  | nil => intro ys x y h; simp at h
  | cons a xs ih =>
      intro ys x y h
      match ys with
      | [] => simp at h
      | b :: ys =>
          rw [List.zip_cons_cons] at h
          rcases List.mem_cons.mp h with h | h
          · injection h with h1 h2
            exact ⟨0, by simp [h1.symm], by simp [h2.symm]⟩
          · obtain ⟨j, hx, hy⟩ := ih ys x y h
            exact ⟨j + 1, by simpa using hx, by simpa using hy⟩

/-- If every id differs from `t`, the singles carry no result for `t`. -/
theorem resultFor_singles_none (t : Str) :
    ∀ (ts : List Str) (rs : List Block) (hlen : rs.length = ts.length),
      (∀ j (hj : j < ts.length),
        ∃ c e, rs.get ⟨j, by omega⟩ = .toolResult (ts.get ⟨j, hj⟩) c e) →
      (∀ t' ∈ ts, t' ≠ t) →
      resultFor t (rs.map fun b => ⟨chars "user", .list [b]⟩) = none := by
  intro ts
  induction ts with
  | nil =>
      intro rs hlen _ _
      rw [List.length_nil] at hlen
      rw [List.eq_nil_of_length_eq_zero hlen]
      rfl
  | cons t0 ts ih =>
      intro rs hlen hrs hdiff
      match rs with
      | [] => simp at hlen
      | r0 :: rs =>
          obtain ⟨c, e, hr0⟩ := hrs 0 (by simp)
          have hr0' : r0 = Block.toolResult t0 c e := hr0
          simp only [List.map_cons, resultFor]
          rw [ih rs (by simpa using hlen)
            (fun j hj => by
              obtain ⟨c', e', h⟩ := hrs (j + 1) (by simpa using hj)
              exact ⟨c', e', h⟩)
            (fun t' ht' => hdiff t' (List.mem_cons_of_mem _ ht'))]
          simp only [msgResBlocks, if_pos rfl]
          rw [hr0']
          have hne : ¬(t0 ≠ [] ∧ t0 = t) := by
            rintro ⟨-, rfl⟩
            exact hdiff t0 (List.mem_cons_self _ _) rfl
          rw [show (List.filter (blockIsRes t)
              [Block.toolResult t0 c e]) = [] from by
            simp [List.filter, blockIsRes, hne]]
          rfl

/-- The singles carry exactly the `j`-th result for the `j`-th id. -/
theorem resultFor_singles_get :
    ∀ (ts : List Str) (rs : List Block) (hlen : rs.length = ts.length),
      (∀ k (hk : k < ts.length),
        ∃ c e, rs.get ⟨k, by omega⟩ = .toolResult (ts.get ⟨k, hk⟩) c e) →
      ts.Nodup → (∀ t' ∈ ts, t' ≠ []) →
      ∀ (j : Nat) (hj : j < ts.length),
        resultFor (ts.get ⟨j, hj⟩)
          (rs.map fun b => ⟨chars "user", .list [b]⟩) =
          some (rs.get ⟨j, by omega⟩) := by
  intro ts
  induction ts with
  | nil => intro rs hlen _ _ _ j hj; simp at hj
  | cons t0 ts ih =>
      intro rs hlen hrs hnd htruthy j hj
      match rs with
      | [] => simp at hlen
      | r0 :: rs =>
          obtain ⟨c, e, hr0⟩ := hrs 0 (by simp)
          have hr0' : r0 = Block.toolResult t0 c e := hr0
          match j with
          | 0 =>
              show resultFor t0 (List.map
                (fun b => ⟨chars "user", MContent.list [b]⟩) (r0 :: rs)) = some r0
              simp only [List.map_cons, resultFor]
              rw [resultFor_singles_none t0 ts rs (by simpa using hlen)
                (fun k hk => by
                  obtain ⟨c', e', h⟩ := hrs (k + 1) (by simpa using hk)
                  exact ⟨c', e', h⟩)
                (fun t' ht' => by
                  rintro rfl
                  exact (List.nodup_cons.mp hnd).1 ht')]
              simp only [msgResBlocks, if_pos rfl]
              rw [hr0']
              have hyes : t0 ≠ [] ∧ t0 = t0 :=
                ⟨htruthy t0 (List.mem_cons_self _ _), rfl⟩
              rw [show (List.filter (blockIsRes t0)
                  [Block.toolResult t0 c e]) = [Block.toolResult t0 c e] from by
                simp [List.filter, blockIsRes, hyes]]
              rfl
          | j + 1 =>
              have hj' : j < ts.length := by simpa using hj
              have hlen' : rs.length = ts.length := by simpa using hlen
              have hrec := ih rs hlen'
                (fun k hk => by
                  obtain ⟨c', e', h⟩ := hrs (k + 1) (by simpa using hk)
                  exact ⟨c', e', h⟩)
                (List.Nodup.of_cons hnd)
                (fun t' ht' => htruthy t' (List.mem_cons_of_mem _ ht'))
                j hj'
              show resultFor (ts.get ⟨j, hj'⟩) (List.map
                (fun b => ⟨chars "user", MContent.list [b]⟩) (r0 :: rs)) =
                some (rs.get ⟨j, by omega⟩)
              simp only [List.map_cons, resultFor]
              rw [hrec]

theorem blockIsUse_eq_true (t : Str) (b : Block) :
    blockIsUse t b = true ↔ ∃ n i, b = .toolUse t n i ∧ t ≠ [] := by
  match b with
  | .toolUse id n i =>
      simp only [blockIsUse, decide_eq_true_eq]
      constructor
      · rintro ⟨hne, rfl⟩
        exact ⟨n, i, rfl, hne⟩
      · rintro ⟨n', i', h, hne⟩
        injection h with h1 h2 h3
        exact ⟨by rw [h1]; exact hne, h1⟩
  | .text u | .toolResult u c e | .record u a r v | .nonDict u
  | .otherDict u v =>
      simp only [blockIsUse, Bool.false_eq_true, false_iff]
      rintro ⟨n', i', h, -⟩
      cases h

theorem msgHasUse_spec (t : Str) (r : Str) (bs : List Block) :
    msgHasUse t ⟨r, .list bs⟩ = true ↔
      r = chars "assistant" ∧ ∃ n i, Block.toolUse t n i ∈ bs ∧ t ≠ [] := by
  simp only [msgHasUse, Bool.and_eq_true, decide_eq_true_eq, List.any_eq_true]
  constructor
  · rintro ⟨hr, b, hb, hu⟩
    obtain ⟨n, i, rfl, hne⟩ := (blockIsUse_eq_true t b).mp hu
    exact ⟨hr, n, i, hb, hne⟩
  · rintro ⟨hr, n, i, hb, hne⟩
    exact ⟨hr, .toolUse t n i, hb, (blockIsUse_eq_true t _).mpr ⟨n, i, rfl, hne⟩⟩

theorem msgHasUse_str (t r s : Str) : msgHasUse t ⟨r, .str s⟩ = false := by
  simp [msgHasUse]

theorem validB_ne_nil (h : List Msg) (t : Str) (hv : validB h t = true) :
    t ≠ [] := by
  simp only [validB, Bool.and_eq_true] at hv
  obtain ⟨m, hm, hu⟩ := List.any_eq_true.mp hv.1
  match m with
  | ⟨r, .str s⟩ => rw [msgHasUse_str] at hu; cases hu
  | ⟨r, .list bs⟩ =>
      obtain ⟨-, n, i, -, hne⟩ := (msgHasUse_spec t r bs).mp hu
      exact hne

theorem toolResultId_none_blockIsRes (t : Str) (b : Block)
    (hb : toolResultId b = none) : blockIsRes t b = false := by
  match b with
  | .toolResult u c e => simp [toolResultId] at hb
  | .text u | .toolUse u n i | .record u a r v | .nonDict u
  | .otherDict u v => rfl

theorem msgResBlocks_non_user (t : Str) (m : Msg)
    (hr : m.role ≠ chars "user") : msgResBlocks t m = [] := by
  match m with
  | ⟨r, .str s⟩ => rfl
  | ⟨r, .list bs⟩ =>
      simp only [msgResBlocks]
      exact if_neg hr

theorem msgResBlocks_no_results (t : Str) (r : Str) (bs : List Block)
    (hnr : ∀ b ∈ bs, toolResultId b = none) :
    msgResBlocks t ⟨r, .list bs⟩ = [] := by
  simp only [msgResBlocks]
  split
  · exact List.filter_eq_nil.mpr fun b hb => by
      rw [toolResultId_none_blockIsRes t b (hnr b hb)]
      exact fun hc => by cases hc
  · rfl

theorem mem_zip_of_index {α β : Type} (xs : List α) (ys : List β) (j : Nat)
    (hj1 : j < xs.length) (hj2 : j < ys.length) :
    (xs.get ⟨j, hj1⟩, ys.get ⟨j, hj2⟩) ∈ xs.zip ys := by
  have hz : j < (xs.zip ys).length := by
    rw [List.length_zip]; omega
  have hget : (xs.zip ys).get ⟨j, hz⟩ = (xs.get ⟨j, hj1⟩, ys.get ⟨j, hj2⟩) := by
    simp [List.get_eq_getElem, List.getElem_zip]
  rw [show (xs.get ⟨j, hj1⟩, ys.get ⟨j, hj2⟩) =
    (xs.zip ys).get ⟨j, hz⟩ from hget.symm]
  exact List.get_mem _ _ hz

/-- Invocation ids recorded in a well-formed segment list are fresh:
none of them lies in the processed set. -/
theorem WF_pairs_fresh : ∀ (p : List Str) (segs : List SanSeg), WF p segs →
    ∀ t b, (t, b) ∈ segsPairs segs → t ∉ p := by
  intro p segs hWF
  induction hWF with
  | nil p => intro t b h; simp [segsPairs] at h
  | strMsg p r s segs hW ih =>
      intro t b h
      rw [segsPairs_cons] at h
      simp only [segPairs, List.nil_append] at h
      exact ih t b h
  | userPlain p bs segs hnr hW ih =>
      intro t b h
      rw [segsPairs_cons] at h
      simp only [segPairs, List.nil_append] at h
      exact ih t b h
  | group p bs rs segs hne hitems htruthy hfresh hlen hrs hW ih =>
      intro t b h
      rw [segsPairs_cons] at h
      simp only [segPairs] at h
      rcases List.mem_append.mp h with h | h
      · exact hfresh t (List.of_mem_zip h).1
      · intro hp
        exact ih t b h (List.mem_append_left _ hp)

/-- The messages of a well-formed segment list carry no `tool_result` for
an id without a recorded pair. -/
theorem resultFor_segs_none : ∀ (p : List Str) (segs : List SanSeg),
    WF p segs → ∀ t, (∀ b, (t, b) ∉ segsPairs segs) →
      resultFor t (segsMsgs segs) = none := by
  intro p segs hWF
  induction hWF with
  | nil p => intro t _; rfl
  | strMsg p r s segs hW ih =>
      intro t hnp
      have htail : resultFor t (segsMsgs segs) = none := ih t fun b hb =>
        hnp b (by rw [segsPairs_cons]; exact List.mem_append_right _ hb)
      rw [segsMsgs_cons]
      rw [show segMsgs (.strMsg r s) ++ segsMsgs segs =
        ⟨r, .str s⟩ :: segsMsgs segs from rfl]
      rw [show resultFor t (Msg.mk r (.str s) :: segsMsgs segs) =
        (match resultFor t (segsMsgs segs) with
         | some b => some b
         | none => (msgResBlocks t ⟨r, .str s⟩).getLast?) from rfl]
      rw [htail]
      rfl
  | userPlain p bs segs hnr hW ih =>
      intro t hnp
      have htail : resultFor t (segsMsgs segs) = none := ih t fun b hb =>
        hnp b (by rw [segsPairs_cons]; exact List.mem_append_right _ hb)
      rw [segsMsgs_cons]
      rw [show segMsgs (.userPlain bs) ++ segsMsgs segs =
        ⟨chars "user", .list bs⟩ :: segsMsgs segs from rfl]
      rw [show resultFor t (Msg.mk (chars "user") (.list bs) :: segsMsgs segs) =
        (match resultFor t (segsMsgs segs) with
         | some b => some b
         | none =>
             (msgResBlocks t ⟨chars "user", .list bs⟩).getLast?) from rfl]
      rw [htail, msgResBlocks_no_results t _ bs hnr]
      rfl
  | group p bs rs segs hne hitems htruthy hfresh hlen hrs hW ih =>
      intro t hnp
      have htail : resultFor t (segsMsgs segs) = none := ih t fun b hb =>
        hnp b (by
          rw [segsPairs_cons]
          exact List.mem_append_right _ hb)
      have hdiff : ∀ t' ∈ keptUseIds bs, t' ≠ t := by
        intro t' ht' heq
        subst heq
        obtain ⟨j, hget⟩ := List.mem_iff_get.mp ht'
        have hj2 : (j : Nat) < rs.length := by
          rw [hlen]; exact j.isLt
        have hzm := mem_zip_of_index (keptUseIds bs) rs j j.isLt hj2
        rw [show (⟨(j : Nat), j.isLt⟩ : Fin (keptUseIds bs).length) = j from
          rfl, hget] at hzm
        exact hnp _ (by
          rw [segsPairs_cons]
          exact List.mem_append_left _ hzm)
      have hsingles : resultFor t
          (rs.map fun b => ⟨chars "user", .list [b]⟩) = none :=
        resultFor_singles_none t (keptUseIds bs) rs hlen hrs hdiff
      rw [segsMsgs_cons]
      rw [show segMsgs (.group bs rs) ++ segsMsgs segs =
        ⟨chars "assistant", .list bs⟩ ::
          ((rs.map fun b => ⟨chars "user", .list [b]⟩) ++ segsMsgs segs)
        from by simp [segMsgs]]
      rw [show resultFor t (Msg.mk (chars "assistant") (.list bs) ::
          ((rs.map fun b => Msg.mk (chars "user") (.list [b])) ++
            segsMsgs segs)) =
        (match resultFor t
            ((rs.map fun b => Msg.mk (chars "user") (.list [b])) ++
              segsMsgs segs) with
         | some b => some b
         | none => (msgResBlocks t
             ⟨chars "assistant", .list bs⟩).getLast?) from rfl]
      rw [resultFor_append, htail, hsingles,
        msgResBlocks_non_user t ⟨chars "assistant", .list bs⟩
          (show chars "assistant" ≠ chars "user" by decide)]
      rfl

/-- In a well-formed segment list the phase-1 lookup finds, for every
recorded pair, exactly the synthesized result block. -/
theorem segs_lookup_result : ∀ (p : List Str) (segs : List SanSeg),
    WF p segs → ∀ t b, (t, b) ∈ segsPairs segs →
      resultFor t (segsMsgs segs) = some b := by
  intro p segs hWF
  induction hWF with
  | nil p => intro t b h; simp [segsPairs] at h
  | strMsg p r s segs hW ih =>
      intro t b h
      rw [segsPairs_cons] at h
      simp only [segPairs, List.nil_append] at h
      have htail := ih t b h
      rw [segsMsgs_cons]
      rw [show segMsgs (.strMsg r s) ++ segsMsgs segs =
        ⟨r, .str s⟩ :: segsMsgs segs from rfl]
      rw [show resultFor t (Msg.mk r (.str s) :: segsMsgs segs) =
        (match resultFor t (segsMsgs segs) with
         | some b => some b
         | none => (msgResBlocks t ⟨r, .str s⟩).getLast?) from rfl]
      rw [htail]
  | userPlain p bs segs hnr hW ih =>
      intro t b h
      rw [segsPairs_cons] at h
      simp only [segPairs, List.nil_append] at h
      have htail := ih t b h
      rw [segsMsgs_cons]
      rw [show segMsgs (.userPlain bs) ++ segsMsgs segs =
        ⟨chars "user", .list bs⟩ :: segsMsgs segs from rfl]
      rw [show resultFor t (Msg.mk (chars "user") (.list bs) :: segsMsgs segs) =
        (match resultFor t (segsMsgs segs) with
         | some b => some b
         | none =>
             (msgResBlocks t ⟨chars "user", .list bs⟩).getLast?) from rfl]
      rw [htail]
  | group p bs rs segs hne hitems htruthy hfresh hlen hrs hW ih =>
      intro t b h
      rw [segsPairs_cons] at h
      simp only [segPairs] at h
      have hmsgs : segsMsgs (.group bs rs :: segs) =
          ⟨chars "assistant", .list bs⟩ ::
            ((rs.map fun b => ⟨chars "user", .list [b]⟩) ++ segsMsgs segs) := by
        rw [segsMsgs_cons]; simp [segMsgs]
      rw [hmsgs]
      rw [show resultFor t (Msg.mk (chars "assistant") (.list bs) ::
          ((rs.map fun b => Msg.mk (chars "user") (.list [b])) ++
            segsMsgs segs)) =
        (match resultFor t
            ((rs.map fun b => Msg.mk (chars "user") (.list [b])) ++
              segsMsgs segs) with
         | some b => some b
         | none => (msgResBlocks t
             ⟨chars "assistant", .list bs⟩).getLast?) from rfl]
      rw [resultFor_append]
      rcases List.mem_append.mp h with h | h
      · obtain ⟨j, hg1, hg2⟩ := mem_zip_index _ _ t b h
        obtain ⟨hj, hget1⟩ := List.get?_eq_some.mp hg1
        obtain ⟨hj2, hget2⟩ := List.get?_eq_some.mp hg2
        have hkt : t ∈ keptUseIds bs := by
          rw [show t = (keptUseIds bs).get ⟨j, hj⟩ from hget1.symm]
          exact List.get_mem _ _ hj
        have htail : resultFor t (segsMsgs segs) = none := by
          apply resultFor_segs_none (p ++ keptUseIds bs) segs hW t
          intro b' hb'
          exact WF_pairs_fresh _ _ hW t b' hb'
            (List.mem_append_right _ hkt)
        have hsingles := resultFor_singles_get (keptUseIds bs) rs hlen hrs
          (keptUseIds_nodup bs)
          (fun t' ht' => by
            obtain ⟨n, i, hbi⟩ := (keptUseIds_mem bs t').mp ht'
            exact htruthy t' n i hbi)
          j hj
        rw [hget1] at hsingles
        rw [htail, hsingles, hget2]
      · have htail := ih t b h
        rw [htail]

/-- In a well-formed segment list every recorded pair's id is announced by
a `tool_use` in an assistant message of the view. -/
theorem segs_lookup_use : ∀ (p : List Str) (segs : List SanSeg),
    WF p segs → ∀ t b, (t, b) ∈ segsPairs segs →
      usesHas (segsMsgs segs) t = true := by
  intro p segs hWF
  induction hWF with
  | nil p => intro t b h; simp [segsPairs] at h
  | strMsg p r s segs hW ih =>
      intro t b h
      rw [segsPairs_cons] at h
      simp only [segPairs, List.nil_append] at h
      have htail := ih t b h
      rw [segsMsgs_cons]
      simp only [usesHas, List.any_append]
      simp only [usesHas] at htail
      rw [htail]
      simp
  | userPlain p bs segs hnr hW ih =>
      intro t b h
      rw [segsPairs_cons] at h
      simp only [segPairs, List.nil_append] at h
      have htail := ih t b h
      rw [segsMsgs_cons]
      simp only [usesHas, List.any_append]
      simp only [usesHas] at htail
      rw [htail]
      simp
  | group p bs rs segs hne hitems htruthy hfresh hlen hrs hW ih =>
      intro t b h
      rw [segsPairs_cons] at h
      simp only [segPairs] at h
      rw [segsMsgs_cons]
      simp only [usesHas, List.any_append]
      rcases List.mem_append.mp h with h | h
      · have hkt : t ∈ keptUseIds bs := (List.of_mem_zip h).1
        obtain ⟨n, i, hbi⟩ := (keptUseIds_mem bs t).mp hkt
        have hh : msgHasUse t ⟨chars "assistant", .list bs⟩ = true :=
          (msgHasUse_spec t _ bs).mpr ⟨rfl, n, i, hbi, htruthy t n i hbi⟩
        have : (segMsgs (.group bs rs)).any (msgHasUse t) = true := by
          simp only [segMsgs, List.any_cons]
          rw [hh]
          simp
        rw [this]
        simp
      · have htail := ih t b h
        simp only [usesHas] at htail
        rw [htail]
        simp

theorem sanWalk_cons (H : List Msg) (m : Msg) (rest : List Msg) (p : List Str) :
    sanWalk H (m :: rest) p =
      (sanStep H p m).1 ++ sanWalk H rest (sanStep H p m).2 := rfl

/-- A synthesized singleton outcome message whose id is already processed
is dropped by the walk. -/
theorem sanStep_single_processed (H : List Msg) (p : List Str) (t : Str)
    (c : RContent) (e : Option Bool) (ht : t ∈ p) :
    sanStep H p ⟨chars "user", .list [.toolResult t c e]⟩ = ([], p) := by
  simp only [sanStep]
  rw [if_pos trivial, userWalk_cons_result, if_pos ht]
  simp [userWalk, toolResultId]
  intro hc
  exact absurd hc (by decide)

/-- Walking a block of already-processed singleton outcome messages
produces nothing and leaves the processed set unchanged. -/
theorem sanWalk_singles_drop (H : List Msg) :
    ∀ (rs : List Block) (M : List Msg) (p : List Str),
      (∀ b ∈ rs, ∃ t c e, b = Block.toolResult t c e ∧ t ∈ p) →
      sanWalk H ((rs.map fun r => ⟨chars "user", .list [r]⟩) ++ M) p =
        sanWalk H M p := by
  intro rs
  induction rs with
  | nil => intro M p _; rfl
  | cons r0 rs ih =>
      intro M p hshape
      obtain ⟨t, c, e, rfl, ht⟩ := hshape r0 (List.mem_cons_self _ _)
      rw [List.map_cons, List.cons_append, sanWalk_cons,
        sanStep_single_processed H p t c e ht]
      rw [show (([] : List Msg), p).1 = ([] : List Msg) from rfl,
        show (([] : List Msg), p).2 = p from rfl, List.nil_append]
      exact ih M p fun b hb => hshape b (List.mem_cons_of_mem _ hb)

/-- The phase-2 walk is the identity on the messages of a well-formed
segment list, provided the phase-1 lookups over `H` agree with the
recorded pairs. -/
theorem sanWalk_wf_id (H : List Msg) : ∀ (p : List Str) (segs : List SanSeg),
    WF p segs →
    (∀ t b, (t, b) ∈ segsPairs segs →
      resultFor t H = some b ∧ usesHas H t = true) →
    sanWalk H (segsMsgs segs) p = segsMsgs segs := by
  intro p segs hWF
  induction hWF with
  | nil p => intro _; rfl
  | strMsg p r s segs hW ih =>
      intro hlook
      have htail := ih fun t b hb =>
        hlook t b (by
          rw [segsPairs_cons]
          simp only [segPairs, List.nil_append]
          exact hb)
      rw [segsMsgs_cons]
      rw [show segMsgs (.strMsg r s) ++ segsMsgs segs =
        ⟨r, .str s⟩ :: segsMsgs segs from rfl]
      rw [sanWalk_cons]
      rw [show sanStep H p ⟨r, .str s⟩ = ([⟨r, .str s⟩], p) from rfl]
      rw [htail]
      rfl
  | userPlain p bs segs hnr hW ih =>
      intro hlook
      have htail := ih fun t b hb =>
        hlook t b (by
          rw [segsPairs_cons]
          simp only [segPairs, List.nil_append]
          exact hb)
      have hany : bs.any (fun b => (toolResultId b).isSome) = false := by
        rw [List.any_eq_false]
        intro b hb
        rw [hnr b hb]
        simp
      have hstep : sanStep H p ⟨chars "user", .list bs⟩ =
          ([⟨chars "user", .list bs⟩], p) := by
        simp [sanStep, userWalk_no_results H bs p hnr, hany,
          show ¬(chars "user" = chars "assistant") by decide]
      rw [segsMsgs_cons]
      rw [show segMsgs (.userPlain bs) ++ segsMsgs segs =
        ⟨chars "user", .list bs⟩ :: segsMsgs segs from rfl]
      rw [sanWalk_cons, hstep, htail]
      rfl
  | group p bs rs segs hne hitems htruthy hfresh hlen hrs hW ih =>
      intro hlook
      have htail := ih fun t b hb =>
        hlook t b (by
          rw [segsPairs_cons]
          exact List.mem_append_right _ hb)
      have hkeep : ∀ b ∈ bs, keepAItem H p b = true := by
        intro b hb
        have hg := hitems b hb
        match b with
        | .text u => rfl
        | .nonDict u => rfl
        | .toolUse id n i =>
            have hid : id ∈ keptUseIds bs :=
              (keptUseIds_mem bs id).mpr ⟨n, i, hb⟩
            obtain ⟨j, hget⟩ := List.mem_iff_get.mp hid
            have hj2 : (j : Nat) < rs.length := by
              rw [hlen]; exact j.isLt
            have hzm := mem_zip_of_index (keptUseIds bs) rs j j.isLt hj2
            rw [show (⟨(j : Nat), j.isLt⟩ : Fin (keptUseIds bs).length) = j from
              rfl, hget] at hzm
            have hlk := hlook id (rs.get ⟨(j : Nat), hj2⟩) (by
              rw [segsPairs_cons]
              exact List.mem_append_left _ hzm)
            have hvalid : validB H id = true := by
              rw [validB, hlk.2, hlk.1]
              rfl
            simp only [keepAItem, hvalid, Bool.and_eq_true, decide_eq_true_eq]
            exact ⟨⟨htruthy id n i hb, trivial⟩, hfresh id hid⟩
        | .toolResult u c e => exact absurd hg (by simp [goodAItem])
        | .record u a r v => exact absurd hg (by simp [goodAItem])
        | .otherDict u v => exact absurd hg (by simp [goodAItem])
      have hfilter : bs.filter (keepAItem H p) = bs :=
        List.filter_eq_self.mpr hkeep
      have hsynth : synthOut H (keptUseIds bs) p =
          (rs.map fun r => ⟨chars "user", .list [r]⟩, p ++ keptUseIds bs) := by
        apply synthOut_eq H (keptUseIds bs) rs p hlen
        · intro j hj
          have hj2 : j < rs.length := by rw [hlen]; exact hj
          have hzm := mem_zip_of_index (keptUseIds bs) rs j hj hj2
          exact (hlook _ _ (by
            rw [segsPairs_cons]
            exact List.mem_append_left _ hzm)).1
        · exact keptUseIds_nodup bs
        · exact hfresh
      have hstep : sanStep H p ⟨chars "assistant", .list bs⟩ =
          (⟨chars "assistant", .list bs⟩ ::
            (rs.map fun r => ⟨chars "user", .list [r]⟩),
           p ++ keptUseIds bs) := by
        simp only [sanStep]
        rw [if_pos trivial, hfilter, if_neg hne, hsynth]
      have hdrop : ∀ b ∈ rs, ∃ t c e, b = Block.toolResult t c e ∧
          t ∈ p ++ keptUseIds bs := by
        intro b hb
        obtain ⟨j, hget⟩ := List.mem_iff_get.mp hb
        have hj : (j : Nat) < (keptUseIds bs).length := by
          rw [← hlen]; exact j.isLt
        obtain ⟨c, e, hbj⟩ := hrs j hj
        refine ⟨(keptUseIds bs).get ⟨(j : Nat), hj⟩, c, e, ?_, ?_⟩
        · rw [← hget]
          rw [show (⟨(j : Nat), j.isLt⟩ : Fin rs.length) = j from rfl] at hbj
          exact hbj
        · exact List.mem_append_right _ (List.get_mem _ _ hj)
      rw [show segsMsgs (.group bs rs :: segs) =
        ⟨chars "assistant", .list bs⟩ ::
          ((rs.map fun r => ⟨chars "user", .list [r]⟩) ++ segsMsgs segs)
        from by rw [segsMsgs_cons]; simp [segMsgs]]
      rw [sanWalk_cons, hstep]
      rw [show (Msg.mk (chars "assistant") (.list bs) ::
          (rs.map fun r => Msg.mk (chars "user") (.list [r])),
          p ++ keptUseIds bs).2 = p ++ keptUseIds bs from rfl]
      rw [sanWalk_singles_drop H rs (segsMsgs segs) (p ++ keptUseIds bs) hdrop,
        htail]
      simp

/-- The order condition making sanitization well-behaved: scanning the
history left to right, every `tool_result` carried by a user message whose
id is globally valid must be preceded by an assistant message announcing
that id (`pre` is the prefix already scanned, `H` the full history for the
phase-1 lookups). -/
def ubrOK (H : List Msg) : List Msg → List Msg → Bool
  | _, [] => true
  | pre, m :: rest =>
      (match m with
       | ⟨r, .list bs⟩ =>
           if r = chars "user" then
             bs.all fun b =>
               match toolResultId b with
               | some t => !(validB H t) || pre.any (msgHasUse t)
               | none => true
           else true
       | _ => true) && ubrOK H (pre ++ [m]) rest

/-- Every valid `tool_result` of the history follows an announcement of
its id (no result-before-use). -/
def ubrCheck (h : List Msg) : Bool := ubrOK h [] h

theorem sanStep_other_role (H : List Msg) (p : List Str) (r : Str)
    (bs : List Block) (hr1 : ¬(r = chars "assistant"))
    (hr2 : ¬(r = chars "user")) :
    sanStep H p ⟨r, .list bs⟩ = ([], p) := by
  simp only [sanStep]
  rw [if_neg hr1, if_neg hr2]

theorem sanStep_user_skipall (H : List Msg) (p : List Str) (bs : List Block)
    (hskip : ∀ tuid c e, Block.toolResult tuid c e ∈ bs →
      tuid ∈ p ∨ validB H tuid = false) :
    sanStep H p ⟨chars "user", .list bs⟩ =
      (if bs.any (fun b => (toolResultId b).isSome) then ([], p)
       else ([⟨chars "user", .list bs⟩], p)) := by
  obtain ⟨hflag, hp⟩ := userWalk_all_skipped H bs p hskip
  simp only [sanStep]
  rw [if_pos trivial, hflag, if_neg (show ¬(false = true) by decide), hp,
    if_neg (show ¬(chars "user" = chars "assistant") by decide)]

theorem sanStep_assistant_empty (H : List Msg) (p : List Str)
    (bs : List Block) (hnc : bs.filter (keepAItem H p) = []) :
    sanStep H p ⟨chars "assistant", .list bs⟩ = ([], p) := by
  simp only [sanStep]
  rw [if_pos trivial, if_pos hnc]

theorem sanStep_assistant_keep (H : List Msg) (p : List Str)
    (bs : List Block) (hnc : ¬(bs.filter (keepAItem H p) = [])) :
    sanStep H p ⟨chars "assistant", .list bs⟩ =
      (⟨chars "assistant", .list (bs.filter (keepAItem H p))⟩ ::
        (synthOut H (keptUseIds (bs.filter (keepAItem H p))) p).1,
       (synthOut H (keptUseIds (bs.filter (keepAItem H p))) p).2) := by
  simp only [sanStep]
  rw [if_pos trivial, if_neg hnc]

theorem msgHasUse_non_assistant (t : Str) (m : Msg)
    (hr : m.role ≠ chars "assistant") : msgHasUse t m = false := by
  simp [msgHasUse, hr]

/-- The first sanitization pass produces a well-formed segment list when
the remaining history satisfies the order condition and the processed set
matches the prefix already walked. -/
theorem walk_wf (h : List Msg) : ∀ (rest pre : List Msg) (p : List Str),
    (∀ t, t ∈ p ↔ (validB h t = true ∧ pre.any (msgHasUse t) = true)) →
    ubrOK h pre rest = true →
    ∃ segs, sanWalk h rest p = segsMsgs segs ∧ WF p segs := by
  intro rest
  induction rest with
  | nil => intro pre p _ _; exact ⟨[], rfl, WF.nil p⟩
  | cons m rest ih =>
      intro pre p hinv hubr
      have hubr' : ubrOK h (pre ++ [m]) rest = true := by
        simp only [ubrOK, Bool.and_eq_true] at hubr
        exact hubr.2
      match m with
      | ⟨r, .str s⟩ =>
          have hinv' : ∀ t, t ∈ p ↔ (validB h t = true ∧
              (pre ++ [(⟨r, .str s⟩ : Msg)]).any (msgHasUse t) = true) := by
            intro t
            rw [hinv t]
            have hany : (pre ++ [(⟨r, .str s⟩ : Msg)]).any (msgHasUse t) =
                pre.any (msgHasUse t) := by
              simp [List.any_append, msgHasUse_str]
            rw [hany]
          obtain ⟨segs, hEq, hWF⟩ := ih (pre ++ [⟨r, .str s⟩]) p hinv' hubr'
          refine ⟨.strMsg r s :: segs, ?_, WF.strMsg p r s segs hWF⟩
          rw [sanWalk_cons,
            show sanStep h p ⟨r, .str s⟩ = ([⟨r, .str s⟩], p) from rfl,
            hEq, segsMsgs_cons]
          rfl
      | ⟨r, .list bs⟩ =>
          by_cases hra : r = chars "assistant"
          · subst hra
            by_cases hnc : bs.filter (keepAItem h p) = []
            · have hinv' : ∀ t, t ∈ p ↔ (validB h t = true ∧
                  (pre ++ [(⟨chars "assistant", .list bs⟩ : Msg)]).any
                    (msgHasUse t) = true) := by
                intro t
                constructor
                · intro hp
                  obtain ⟨hv, ha⟩ := (hinv t).mp hp
                  exact ⟨hv, by simp [List.any_append, ha]⟩
                · rintro ⟨hv, ha⟩
                  simp only [List.any_append, List.any_cons, List.any_nil,
                    Bool.or_false, Bool.or_eq_true] at ha
                  rcases ha with ha | hm
                  · exact (hinv t).mpr ⟨hv, ha⟩
                  · by_contra hnp
                    obtain ⟨-, n, i, hbi, hne⟩ :=
                      (msgHasUse_spec t _ bs).mp hm
                    have hk : keepAItem h p (.toolUse t n i) = true := by
                      simp only [keepAItem, Bool.and_eq_true,
                        decide_eq_true_eq]
                      exact ⟨⟨hne, hv⟩, hnp⟩
                    have hmem : Block.toolUse t n i ∈
                        bs.filter (keepAItem h p) :=
                      List.mem_filter.mpr ⟨hbi, hk⟩
                    rw [hnc] at hmem
                    cases hmem
              obtain ⟨segs, hEq, hWF⟩ :=
                ih (pre ++ [⟨chars "assistant", .list bs⟩]) p hinv' hubr'
              refine ⟨segs, ?_, hWF⟩
              rw [sanWalk_cons, sanStep_assistant_empty h p bs hnc]
              simpa using hEq
            · have hkinfo : ∀ t ∈ keptUseIds (bs.filter (keepAItem h p)),
                  validB h t = true ∧ t ∉ p ∧ t ≠ [] := by
                intro t ht
                obtain ⟨n, i, hbi⟩ := (keptUseIds_mem _ t).mp ht
                have hk := List.of_mem_filter hbi
                simp only [keepAItem, Bool.and_eq_true,
                  decide_eq_true_eq] at hk
                exact ⟨hk.1.2, hk.2, hk.1.1⟩
              have hgetD : ∀ (o : Option Block), o.isSome = true →
                  some (o.getD (.text [])) = o := by
                intro o ho
                match o with
                | some x => rfl
                | none => exact absurd ho (by simp)
              have hres : ∀ j
                  (hj : j < (keptUseIds (bs.filter (keepAItem h p))).length),
                  resultFor
                    ((keptUseIds (bs.filter (keepAItem h p))).get ⟨j, hj⟩) h =
                  some (((keptUseIds (bs.filter (keepAItem h p))).map
                    (fun t => (resultFor t h).getD (.text []))).get
                      ⟨j, by rw [List.length_map]; exact hj⟩) := by
                intro j hj
                have ht := hkinfo _ (List.get_mem _ _ hj)
                have hsome : (resultFor
                    ((keptUseIds (bs.filter (keepAItem h p))).get
                      ⟨j, hj⟩) h).isSome = true := by
                  have hv := ht.1
                  rw [validB, Bool.and_eq_true] at hv
                  exact hv.2
                simp only [List.get_eq_getElem, List.getElem_map]
                exact (hgetD _ hsome).symm
              have hsynth := synthOut_eq h
                (keptUseIds (bs.filter (keepAItem h p)))
                ((keptUseIds (bs.filter (keepAItem h p))).map
                  (fun t => (resultFor t h).getD (.text []))) p
                (by rw [List.length_map])
                hres
                (keptUseIds_nodup _)
                (fun t ht => (hkinfo t ht).2.1)
              have hinv' : ∀ t, t ∈
                  p ++ keptUseIds (bs.filter (keepAItem h p)) ↔
                  (validB h t = true ∧
                    (pre ++ [(⟨chars "assistant", .list bs⟩ : Msg)]).any
                      (msgHasUse t) = true) := by
                intro t
                constructor
                · intro hp
                  rcases List.mem_append.mp hp with hp | hp
                  · obtain ⟨hv, ha⟩ := (hinv t).mp hp
                    exact ⟨hv, by simp [List.any_append, ha]⟩
                  · obtain ⟨n, i, hbi⟩ := (keptUseIds_mem _ t).mp hp
                    have hk := List.of_mem_filter hbi
                    simp only [keepAItem, Bool.and_eq_true,
                      decide_eq_true_eq] at hk
                    refine ⟨hk.1.2, ?_⟩
                    have hm : msgHasUse t
                        ⟨chars "assistant", .list bs⟩ = true :=
                      (msgHasUse_spec t _ bs).mpr
                        ⟨rfl, n, i, List.mem_of_mem_filter hbi, hk.1.1⟩
                    simp [List.any_append, hm]
                · rintro ⟨hv, ha⟩
                  simp only [List.any_append, List.any_cons, List.any_nil,
                    Bool.or_false, Bool.or_eq_true] at ha
                  rcases ha with ha | hm
                  · exact List.mem_append_left _ ((hinv t).mpr ⟨hv, ha⟩)
                  · obtain ⟨-, n, i, hbi, hne⟩ :=
                      (msgHasUse_spec t _ bs).mp hm
                    by_cases hp : t ∈ p
                    · exact List.mem_append_left _ hp
                    · refine List.mem_append_right _ ?_
                      have hk : keepAItem h p (.toolUse t n i) = true := by
                        simp only [keepAItem, Bool.and_eq_true,
                          decide_eq_true_eq]
                        exact ⟨⟨hne, hv⟩, hp⟩
                      exact (keptUseIds_mem _ t).mpr
                        ⟨n, i, List.mem_filter.mpr ⟨hbi, hk⟩⟩
              obtain ⟨segs, hEq, hWF⟩ :=
                ih (pre ++ [⟨chars "assistant", .list bs⟩])
                  (p ++ keptUseIds (bs.filter (keepAItem h p))) hinv' hubr'
              refine ⟨.group (bs.filter (keepAItem h p))
                ((keptUseIds (bs.filter (keepAItem h p))).map
                  (fun t => (resultFor t h).getD (.text []))) :: segs,
                ?_, ?_⟩
              · rw [sanWalk_cons, sanStep_assistant_keep h p bs hnc, hsynth]
                rw [show ((((keptUseIds (bs.filter (keepAItem h p))).map
                    (fun t => (resultFor t h).getD (.text []))).map
                      fun r => (⟨chars "user", .list [r]⟩ : Msg)),
                    p ++ keptUseIds (bs.filter (keepAItem h p))).1 =
                  (((keptUseIds (bs.filter (keepAItem h p))).map
                    (fun t => (resultFor t h).getD (.text []))).map
                      fun r => (⟨chars "user", .list [r]⟩ : Msg)) from rfl]
                rw [show ((((keptUseIds (bs.filter (keepAItem h p))).map
                    (fun t => (resultFor t h).getD (.text []))).map
                      fun r => (⟨chars "user", .list [r]⟩ : Msg)),
                    p ++ keptUseIds (bs.filter (keepAItem h p))).2 =
                  p ++ keptUseIds (bs.filter (keepAItem h p)) from rfl]
                rw [hEq, segsMsgs_cons]
                simp [segMsgs]
              · refine WF.group _ _ _ _ hnc ?_ ?_
                  (fun t ht => (hkinfo t ht).2.1)
                  (by rw [List.length_map])
                  ?_ hWF
                · intro b hb
                  have hk := List.of_mem_filter hb
                  match b with
                  | .text u => exact trivial
                  | .nonDict u => exact trivial
                  | .toolUse u n i => exact trivial
                  | .toolResult u c e => simp [keepAItem] at hk
                  | .record u a rr v => simp [keepAItem] at hk
                  | .otherDict u v => simp [keepAItem] at hk
                · intro id n i hbi
                  have hk := List.of_mem_filter hbi
                  simp only [keepAItem, Bool.and_eq_true,
                    decide_eq_true_eq] at hk
                  exact hk.1.1
                · intro j hj
                  have hr := hres j hj
                  obtain ⟨c, e, hb⟩ := resultFor_is_toolResult _ h _ hr
                  exact ⟨c, e, hb⟩
          · by_cases hru : r = chars "user"
            · subst hru
              have hhead : bs.all (fun b =>
                  match toolResultId b with
                  | some t => !(validB h t) || pre.any (msgHasUse t)
                  | none => true) = true := by
                simp only [ubrOK, Bool.and_eq_true] at hubr
                have hh := hubr.1
                simpa using hh
              have hskip : ∀ tuid c e, Block.toolResult tuid c e ∈ bs →
                  tuid ∈ p ∨ validB h tuid = false := by
                intro tuid c e hb
                cases hvb : validB h tuid with
                | false => exact Or.inr rfl
                | true =>
                    left
                    have hall := List.all_eq_true.mp hhead _ hb
                    simp only [toolResultId, hvb, Bool.not_true,
                      Bool.false_or] at hall
                    exact (hinv tuid).mpr ⟨hvb, hall⟩
              have hinv' : ∀ t, t ∈ p ↔ (validB h t = true ∧
                  (pre ++ [(⟨chars "user", .list bs⟩ : Msg)]).any
                    (msgHasUse t) = true) := by
                intro t
                rw [hinv t]
                have hany : (pre ++
                    [(⟨chars "user", .list bs⟩ : Msg)]).any (msgHasUse t) =
                    pre.any (msgHasUse t) := by
                  simp [List.any_append,
                    msgHasUse_non_assistant t ⟨chars "user", .list bs⟩
                      (show chars "user" ≠ chars "assistant" by decide)]
                rw [hany]
              obtain ⟨segs, hEq, hWF⟩ :=
                ih (pre ++ [⟨chars "user", .list bs⟩]) p hinv' hubr'
              by_cases hany : bs.any (fun b => (toolResultId b).isSome) = true
              · refine ⟨segs, ?_, hWF⟩
                rw [sanWalk_cons, sanStep_user_skipall h p bs hskip,
                  if_pos hany]
                simpa using hEq
              · have hnr : ∀ b ∈ bs, toolResultId b = none := by
                  intro b hb
                  have hanyf : bs.any
                      (fun b => (toolResultId b).isSome) = false := by
                    revert hany
                    cases bs.any (fun b => (toolResultId b).isSome)
                    · intro _; rfl
                    · intro hc; exact absurd rfl hc
                  have hx := List.any_eq_false.mp hanyf b hb
                  cases hti : toolResultId b with
                  | none => rfl
                  | some t =>
                      rw [hti] at hx
                      exact absurd rfl hx
                refine ⟨.userPlain bs :: segs, ?_,
                  WF.userPlain p bs segs hnr hWF⟩
                rw [sanWalk_cons, sanStep_user_skipall h p bs hskip,
                  if_neg hany, hEq, segsMsgs_cons]
                rfl
            · have hinv' : ∀ t, t ∈ p ↔ (validB h t = true ∧
                  (pre ++ [(⟨r, .list bs⟩ : Msg)]).any
                    (msgHasUse t) = true) := by
                intro t
                rw [hinv t]
                have hany : (pre ++ [(⟨r, .list bs⟩ : Msg)]).any
                    (msgHasUse t) = pre.any (msgHasUse t) := by
                  simp [List.any_append,
                    msgHasUse_non_assistant t ⟨r, .list bs⟩ hra]
                rw [hany]
              obtain ⟨segs, hEq, hWF⟩ :=
                ih (pre ++ [⟨r, .list bs⟩]) p hinv' hubr'
              refine ⟨segs, ?_, hWF⟩
              rw [sanWalk_cons, sanStep_other_role h p r bs hra hru]
              simpa using hEq

/-- Phases 1–2 of the sanitizer produce a well-formed segment list under
the order condition. -/
theorem sanitizeCore_wf (h : List Msg) (hubr : ubrCheck h = true) :
    ∃ segs, sanitizeCore h = segsMsgs segs ∧ WF [] segs := by
  apply walk_wf h h [] []
  · intro t
    simp
  · exact hubr

/-- The secondary truncation is inactive within the token budget. -/
theorem sanTrunc_id (S : List Msg) (hsize : approxTokens S ≤ maxTokenLimit) :
    sanTrunc S = S := by
  rw [sanTrunc, if_neg]
  rintro ⟨hgt, -⟩
  omega

/-- The pairing-check walk: `expect` holds the invocation ids whose
singleton outcome messages must appear next, in order; an assistant
message loads its kept invocation ids into `expect`. -/
def pairWalk : List Str → List Msg → Bool
  | [], [] => true
  | t :: ts, ⟨r, .list [.toolResult u _ _]⟩ :: S =>
      decide (r = chars "user") && decide (u = t) && pairWalk ts S
  | _ :: _, _ => false
  | [], m :: S =>
      match m with
      | ⟨r, .list bs⟩ =>
          if r = chars "assistant" then pairWalk (keptUseIds bs) S
          else pairWalk [] S
      | ⟨_, .str _⟩ => pairWalk [] S

/-- The pairing property of a sanitized view: every assistant message is
followed by exactly one singleton user outcome message per kept
invocation id, in invocation order. -/
def pairingOK (S : List Msg) : Bool := pairWalk [] S

theorem pairWalk_singles : ∀ (ts : List Str) (rs : List Block) (S : List Msg)
    (hlen : rs.length = ts.length),
    (∀ j (hj : j < ts.length),
      ∃ c e, rs.get ⟨j, by omega⟩ = .toolResult (ts.get ⟨j, hj⟩) c e) →
    pairWalk ts ((rs.map fun r => ⟨chars "user", .list [r]⟩) ++ S) =
      pairWalk [] S := by
  intro ts
  induction ts with
  | nil =>
      intro rs S hlen _
      have hrs0 : rs = [] := List.eq_nil_of_length_eq_zero (by simpa using hlen)
      subst hrs0
      rfl
  | cons t0 ts ih =>
      intro rs S hlen hrs
      match rs with
      | [] => simp at hlen
      | r0 :: rs =>
          obtain ⟨c, e, hr0⟩ := hrs 0 (by simp)
          have hr0' : r0 = Block.toolResult t0 c e := hr0
          subst hr0'
          rw [List.map_cons, List.cons_append]
          rw [show pairWalk (t0 :: ts)
              ((⟨chars "user", .list [Block.toolResult t0 c e]⟩ : Msg) ::
                ((rs.map fun r => ⟨chars "user", .list [r]⟩) ++ S)) =
            (decide (chars "user" = chars "user") && decide (t0 = t0) &&
              pairWalk ts ((rs.map fun r =>
                ⟨chars "user", .list [r]⟩) ++ S)) from rfl]
          rw [ih rs S (by simpa using hlen)
            (fun j hj => hrs (j + 1) (by simpa using hj))]
          simp

/-- A well-formed segment list satisfies the pairing property. -/
theorem pairingOK_of_WF : ∀ (p : List Str) (segs : List SanSeg),
    WF p segs → pairWalk [] (segsMsgs segs) = true := by
  intro p segs hWF
  induction hWF with
  | nil p => rfl
  | strMsg p r s segs hW ih =>
      rw [segsMsgs_cons]
      rw [show segMsgs (.strMsg r s) ++ segsMsgs segs =
        ⟨r, .str s⟩ :: segsMsgs segs from rfl]
      rw [show pairWalk [] ((⟨r, .str s⟩ : Msg) :: segsMsgs segs) =
        pairWalk [] (segsMsgs segs) from rfl]
      exact ih
  | userPlain p bs segs hnr hW ih =>
      rw [segsMsgs_cons]
      rw [show segMsgs (.userPlain bs) ++ segsMsgs segs =
        ⟨chars "user", .list bs⟩ :: segsMsgs segs from rfl]
      rw [show pairWalk []
          ((⟨chars "user", .list bs⟩ : Msg) :: segsMsgs segs) =
        pairWalk [] (segsMsgs segs) from rfl]
      exact ih
  | group p bs rs segs hne hitems htruthy hfresh hlen hrs hW ih =>
      rw [show segsMsgs (.group bs rs :: segs) =
        ⟨chars "assistant", .list bs⟩ ::
          ((rs.map fun r => ⟨chars "user", .list [r]⟩) ++ segsMsgs segs)
        from by rw [segsMsgs_cons]; simp [segMsgs]]
      rw [show pairWalk []
          ((⟨chars "assistant", .list bs⟩ : Msg) ::
            ((rs.map fun r => ⟨chars "user", .list [r]⟩) ++ segsMsgs segs)) =
        pairWalk (keptUseIds bs)
          ((rs.map fun r => ⟨chars "user", .list [r]⟩) ++ segsMsgs segs)
        from rfl]
      rw [pairWalk_singles (keptUseIds bs) rs (segsMsgs segs) hlen hrs]
      exact ih

/-- **C1 (amended)** — Under the order condition (every globally valid
`tool_result` in a user message is preceded by an assistant message
announcing its id) and within the token budget, the sanitized view
satisfies the pairing property: each assistant message is followed by
exactly one synthesized singleton user message per kept invocation id,
carrying the matching `ToolOutcome`, in invocation order — rather than a
single user message holding all outcomes. -/
theorem C1_sanitized_pairing (h : List Msg)
    (hubr : ubrCheck h = true)
    (hsize : approxTokens (sanitizeCore h) ≤ maxTokenLimit) :
    pairingOK (get_sanitized_conversation_history h) = true := by
  obtain ⟨segs, hEq, hWF⟩ := sanitizeCore_wf h hubr
  rw [get_sanitized_conversation_history, sanTrunc_id _ hsize, hEq]
  exact pairingOK_of_WF [] segs hWF

/-- Witness for C1 at a concrete input: the two-invocation history
satisfies both hypotheses and its sanitized view passes the pairing
check. -/
theorem C1_witness :
    ubrCheck cexTwoUses = true ∧
    approxTokens (sanitizeCore cexTwoUses) ≤ maxTokenLimit ∧
    pairingOK (get_sanitized_conversation_history cexTwoUses) = true :=
  ⟨by decide, by decide,
    C1_sanitized_pairing cexTwoUses (by decide) (by decide)⟩

/-- **C2 (amended)** — Sanitization is idempotent on histories satisfying
the order condition (no valid `tool_result` precedes the announcement of
its id) whose sanitized core stays within the token budget; without the
order condition it is refuted by `C2_counterexample`. -/
theorem C2_sanitize_idempotent (h : List Msg)
    (hubr : ubrCheck h = true)
    (hsize : approxTokens (sanitizeCore h) ≤ maxTokenLimit) :
    get_sanitized_conversation_history (get_sanitized_conversation_history h) =
      get_sanitized_conversation_history h := by
  obtain ⟨segs, hEq, hWF⟩ := sanitizeCore_wf h hubr
  have h1 : get_sanitized_conversation_history h = sanitizeCore h := by
    rw [get_sanitized_conversation_history, sanTrunc_id _ hsize]
  have h2 : sanitizeCore (sanitizeCore h) = sanitizeCore h := by
    rw [hEq]
    show sanWalk (segsMsgs segs) (segsMsgs segs) [] = segsMsgs segs
    apply sanWalk_wf_id (segsMsgs segs) [] segs hWF
    intro t b hb
    exact ⟨segs_lookup_result [] segs hWF t b hb,
           segs_lookup_use [] segs hWF t b hb⟩
  rw [h1, get_sanitized_conversation_history, h2, sanTrunc_id _ hsize]

/-- Witness for C2 at a concrete input: the two-invocation history
satisfies both hypotheses and sanitizing its sanitized view returns it
unchanged. -/
theorem C2_witness :
    ubrCheck cexTwoUses = true ∧
    approxTokens (sanitizeCore cexTwoUses) ≤ maxTokenLimit ∧
    get_sanitized_conversation_history
        (get_sanitized_conversation_history cexTwoUses) =
      get_sanitized_conversation_history cexTwoUses :=
  ⟨by decide, by decide,
    C2_sanitize_idempotent cexTwoUses (by decide) (by decide)⟩
